import Mathlib

/-! # Goodix 5395 wire protocol: `libfprint/drivers/goodix/5395/goodix_protocol.c`

A shallow embedding of the message codec, the checksum, the ack validator, the
OTP hash, the image decoder and the FDT base transform of `goodix_protocol.c`,
followed by theorems about them.

Conventions of the embedding:

* a byte buffer (`guint8 *`, `GByteArray`) is a `List Nat`; a well-formed
  buffer holds values below 256 (`IsBytes`);
* C integer types are `Nat`/`Int` with an explicit reduction at every place
  where the C code stores into a narrower type (`% 256` for `guint8`,
  `% 65536` for `guint16`, `% 2 ^ 32` for `guint`/`guint32`); `int` is 32 bits,
  `gsize` is 64 bits;
* the host is little-endian, so that the `guint16` field `length` of the packed
  header occupies offsets 1 (low byte) and 2 (high byte) and `GUINT16_TO_LE`
  is the identity;
* a read or write outside the buffer, which is undefined behaviour in C, makes
  the embedded function return `none`.
-/

namespace Goodix

set_option autoImplicit false

/-! ## Data model -/

/-- A buffer is well formed when each of its cells holds a `guint8` value. -/
def IsBytes (l : List Nat) : Prop := ∀ b ∈ l, b < 256

instance (l : List Nat) : Decidable (IsBytes l) := by
  unfold IsBytes; infer_instance

/-- The `GError` of GLib: an error domain, an error code and a message. -/
structure GError where
  domain : Nat
  code : Int
  message : String
  deriving DecidableEq

/-- The `GoodixMessage` of `goodix_protocol.h`: `category`, `command` and the
`GByteArray` payload (its `len` is the length of the list). -/
structure GoodixMessage where
  category : Nat
  command : Nat
  payload : List Nat
  deriving DecidableEq

/-- The macro `GOODIX_NULL_CHECKSUM` of `goodix_protocol.c`. -/
def GOODIX_NULL_CHECKSUM : Nat := 0x88

/-- Modelled from the spec: `sizeof(GoodixDevicePack)`. The header
`goodix_protocol.h` that declares the packed struct is missing; the spec fixes
the header at 3 bytes, one `cmd` byte and a 16-bit `length`. -/
def sizeof_GoodixDevicePack : Nat := 3

/-- The C conversion `%02x` of `printf` for an unsigned value: lower-case
hexadecimal digits, padded with zeros on the left to a width of two. -/
def fmt02x (v : Nat) : String :=
  let digits := Nat.toDigits 16 v
  String.mk (List.replicate (2 - digits.length) '0' ++ digits)

/-- GLib's `g_set_error` on an error slot: an empty slot receives the new
error; a slot that already holds an error keeps it (GLib logs a warning and
drops the new one). -/
def g_set_error (error : Option GError) (domain : Nat) (code : Int) (message : String) :
    Option GError :=
  match error with
  | none => some { domain := domain, code := code, message := message }
  | some e => some e

/-- Reading `len` cells of `data` from offset `off`; `none` outside the buffer. -/
def readBytes (data : List Nat) (off len : Nat) : Option (List Nat) :=
  if off + len ≤ data.length then some ((data.drop off).take len) else none

/-- Writing the cells `src` into `buf` from offset `off` (an assignment through
the pointer, or `memcpy`); `none` outside the buffer. -/
def writeBytes (buf : List Nat) (off : Nat) (src : List Nat) : Option (List Nat) :=
  if off + src.length ≤ buf.length then
    some (buf.take off ++ src ++ buf.drop (off + src.length))
  else none

/-! ## `fpi_goodix_protocol_check_ack` -/

/-- The function `fpi_goodix_protocol_check_ack`, called with an empty error
slot. `domain` stands for `FPI_TYPE_IMAGE_DEVICE_STATE`. The result is the
returned boolean and the final content of the error slot. -/
def fpi_goodix_protocol_check_ack (domain : Nat) (message : GoodixMessage) :
    Bool × Option GError :=
  let is_valid_ack := true
  let error : Option GError := none
  let (is_valid_ack, error) :=
    if message.category != 0xB then
      (false, g_set_error error domain (-1) "Not an ack message")
    else (is_valid_ack, error)
  let (is_valid_ack, error) :=
    if message.command != 0 then
      (false, g_set_error error domain (-1) "ACK should not have commands")
    else (is_valid_ack, error)
  (is_valid_ack, error)

/-! ## `fpi_goodix_calc_checksum` -/

/-- The loop of `fpi_goodix_calc_checksum`: `k` iterations are left, `i` is the
loop index and `checksum` the `guint8` accumulator. As `i < length <= 65535`
the increment of the `guint16` index never wraps. -/
def fpi_goodix_calc_checksum.loop (data : List Nat) : Nat → Nat → Nat → Option Nat
  | 0, _, checksum => some checksum
  | k + 1, i, checksum =>
    match data[i]? with
    | none => none
    | some b => fpi_goodix_calc_checksum.loop data k (i + 1) ((checksum + b) % 256)

/-- The function `fpi_goodix_calc_checksum`. The parameter `length` is a
`guint16`: the argument is converted on entry. The returned expression
`0xAA - checksum & 0xFF` parses as `(0xAA - checksum) & 0xFF` and is computed in
`int`; masking a two's-complement value with `0xFF` is the remainder modulo
256. -/
def fpi_goodix_calc_checksum (data : List Nat) (length : Nat) : Option Nat :=
  match fpi_goodix_calc_checksum.loop data (length % 65536) 0 0 with
  | none => none
  | some checksum => some (((0xAA : Int) - (checksum : Int)) % 256).toNat

/-- The checksum in the spec's words: `(0xAA - sum(bytes)) & 0xFF`. -/
def checksumSpec (bytes : List Nat) : Nat :=
  (((0xAA : Int) - (bytes.sum : Int)) % 256).toNat

/-! ## `fpi_goodix_protocol_encode` -/

/-- The value of `*data_len` in `fpi_goodix_protocol_encode` (a `guint32`):
header, payload and checksum byte, rounded up to a multiple of
`GOODIX_EP_OUT_MAX_BUF_SIZE` when `pad_data` is set. -/
def fpi_goodix_protocol_encode.data_len (GOODIX_EP_OUT_MAX_BUF_SIZE payload_len : Nat)
    (pad_data : Bool) : Nat :=
  -- *data_len = sizeof(GoodixDevicePack) + payload_len + sizeof(guint8);
  let data_len := (sizeof_GoodixDevicePack + payload_len + 1) % 2 ^ 32
  if pad_data && data_len % GOODIX_EP_OUT_MAX_BUF_SIZE != 0 then
    -- *data_len += GOODIX_EP_OUT_MAX_BUF_SIZE - *data_len % GOODIX_EP_OUT_MAX_BUF_SIZE;
    (data_len + (GOODIX_EP_OUT_MAX_BUF_SIZE - data_len % GOODIX_EP_OUT_MAX_BUF_SIZE)) % 2 ^ 32
  else data_len

/-- The function `fpi_goodix_protocol_encode`. The first argument stands for
the macro `GOODIX_EP_OUT_MAX_BUF_SIZE`, whose definition is in the missing
header. The result is the buffer `*data` and `*data_len`; `none` stands for
undefined behaviour (a remainder by zero in the padding test, or a write past
the allocation). -/
def fpi_goodix_protocol_encode (GOODIX_EP_OUT_MAX_BUF_SIZE : Nat) (message : GoodixMessage)
    (calc_checksum pad_data : Bool) : Option (List Nat × Nat) :=
  -- guint16 payload_len = message->payload->len;
  let payload_len := message.payload.length % 65536
  if pad_data && GOODIX_EP_OUT_MAX_BUF_SIZE == 0 then none
  else
    let data_len :=
      fpi_goodix_protocol_encode.data_len GOODIX_EP_OUT_MAX_BUF_SIZE payload_len pad_data
    -- *data = g_malloc0(*data_len);
    let data := List.replicate data_len 0
    -- pack->cmd = message->category << 4 | message->command << 1;
    let cmd := ((message.category <<< 4) ||| (message.command <<< 1)) % 256
    -- pack->length = GUINT16_TO_LE(payload_len + sizeof(guint8));
    let length := (payload_len + 1) % 65536
    match writeBytes data 0 [cmd] with
    | none => none
    | some data =>
      match writeBytes data 1 [length % 256, length / 256] with
      | none => none
      | some data =>
        -- memcpy(*data + sizeof(GoodixDevicePack), message->payload->data, payload_len);
        match writeBytes data sizeof_GoodixDevicePack (message.payload.take payload_len) with
        | none => none
        | some data =>
          if calc_checksum then
            let package_with_payload_length := sizeof_GoodixDevicePack + payload_len
            match fpi_goodix_calc_checksum data package_with_payload_length with
            | none => none
            | some checksum =>
              match writeBytes data package_with_payload_length [checksum] with
              | none => none
              | some data => some (data, data_len)
          else
            match writeBytes data (sizeof_GoodixDevicePack + payload_len)
                [GOODIX_NULL_CHECKSUM] with
            | none => none
            | some data => some (data, data_len)

/-! ## `fpi_goodix_protocol_decode` -/

/-- The error set by `fpi_goodix_protocol_decode`:
`g_set_error(error, 1, 1, "Wrong checksum: expected %02x, received %02x", ...)`
on an empty error slot. -/
def wrongChecksum (checksum message_checksum : Nat) : GError :=
  { domain := 1, code := 1,
    message := "Wrong checksum: expected " ++ fmt02x checksum ++ ", received "
      ++ fmt02x message_checksum }

/-- The tail of `fpi_goodix_protocol_decode`, after the checksum test: the
message is built from the `cmd` byte and from `pack->length - 1` bytes copied
from offset `sizeof(GoodixDevicePack)`. The count `pack->length - 1` is an
`int` converted to the `guint` parameter of `g_byte_array_append`. -/
def fpi_goodix_protocol_decode.message (data : List Nat) (length : Nat) :
    Option GoodixMessage :=
  match data[0]? with
  | none => none
  | some cmd =>
    match readBytes data sizeof_GoodixDevicePack (((length : Int) - 1) % 2 ^ 32).toNat with
    | none => none
    | some payload =>
      some { category := cmd >>> 4, command := (cmd &&& 0xF) >>> 1, payload := payload }

/-- The function `fpi_goodix_protocol_decode`, called with an empty error
slot. `some (.ok m)` is the return value `TRUE` with `*message = m`,
`some (.error e)` is the return value `FALSE` with `*error = e`, and `none` is
a read outside the buffer. -/
def fpi_goodix_protocol_decode (data : List Nat) : Option (Except GError GoodixMessage) :=
  match data[1]?, data[2]? with
  | some lo, some hi =>
    -- pack->length, a guint16 read on a little-endian host
    let length := lo + 256 * hi
    -- guint data_length = sizeof(GoodixDevicePack) + pack->length - 1;
    let data_length := (sizeof_GoodixDevicePack + length - 1) % 2 ^ 32
    match data[data_length]? with
    | none => none
    | some message_checksum =>
      if message_checksum != 0x88 then
        match fpi_goodix_calc_checksum data data_length with
        | none => none
        | some checksum =>
          if message_checksum != checksum then
            some (.error (wrongChecksum checksum message_checksum))
          else (fpi_goodix_protocol_decode.message data length).map .ok
      else (fpi_goodix_protocol_decode.message data length).map .ok
  | _, _ => none

/-! ## `fpi_goodix_protocol_verify_otp_hash` -/

/-- The loop of `fpi_goodix_protocol_compute_otp_hash`: `k` iterations are
left, `i` is the loop index and `checksum` the `guint8` state. Index 25 is
skipped by `continue`; the table `otp_hash` is an array of `guint8`, so the
assignment `checksum = otp_hash[...]` does not narrow. -/
def fpi_goodix_protocol_compute_otp_hash.loop (otp otp_hash : List Nat) :
    Nat → Nat → Nat → Option Nat
  | 0, _, checksum => some checksum
  | k + 1, i, checksum =>
    if i == 25 then fpi_goodix_protocol_compute_otp_hash.loop otp otp_hash k (i + 1) checksum
    else
      match otp[i]? with
      | none => none
      | some b =>
        match otp_hash[checksum ^^^ b]? with
        | none => none
        | some t => fpi_goodix_protocol_compute_otp_hash.loop otp otp_hash k (i + 1) t

/-- The function `fpi_goodix_protocol_compute_otp_hash`. `otp_length` is a
`guint`. The returned expression `~checksum & 0xFF` is computed in `int`, where
`~x = -x - 1`. -/
def fpi_goodix_protocol_compute_otp_hash (otp : List Nat) (otp_length : Nat)
    (otp_hash : List Nat) : Option Nat :=
  match fpi_goodix_protocol_compute_otp_hash.loop otp otp_hash (otp_length % 2 ^ 32) 0 0 with
  | none => none
  | some checksum => some ((-(checksum : Int) - 1) % 256).toNat

/-- The function `fpi_goodix_protocol_verify_otp_hash`. -/
def fpi_goodix_protocol_verify_otp_hash (otp : List Nat) (otp_length : Nat)
    (otp_hash : List Nat) : Option Bool :=
  match otp[25]? with
  | none => none
  | some received_hash =>
    match fpi_goodix_protocol_compute_otp_hash otp otp_length otp_hash with
    | none => none
    | some computed_hash => some (received_hash == computed_hash)

/-- The OTP state in the spec's words: start from 0 and, for each index from 0
to length - 1 except index 25, replace the state by `table[state XOR byte]`. -/
def otpStateSpec (table otp : List Nat) : Nat :=
  ((List.range otp.length).filter (fun i => i != 25)).foldl
    (fun state i => table.getD (state ^^^ otp.getD i 0) 0) 0

/-- The OTP hash in the spec's words: the bitwise NOT of the final state,
masked to 8 bits. -/
def otpHashSpec (table otp : List Nat) : Nat :=
  (otpStateSpec table otp) ^^^ 0xFF

/-! ## `fpi_goodix_protocol_decode_u32` -/

/-- The value of a C `int` (32 bits, two's complement) that holds the
mathematical integer `x` reduced modulo `2 ^ 32`. Signed arithmetic is taken
to wrap, as it does on the targets of the driver. -/
def toInt32 (x : Int) : Int :=
  (x + 2 ^ 31) % 2 ^ 32 - 2 ^ 31

/-- The function `fpi_goodix_protocol_decode_u32`. The four bytes are promoted
to `int`; reducing the sum once at the end gives the same `int` as wrapping
after each operation. The parameter `length` is not used by the C code. -/
def fpi_goodix_protocol_decode_u32 (data : List Nat) (_length : Nat) : Option Int :=
  match data[0]?, data[1]?, data[2]?, data[3]? with
  | some d0, some d1, some d2, some d3 =>
    some (toInt32 (Int.ofNat d0 * 0x100 + Int.ofNat d1 + Int.ofNat d2 * 0x1000000
      + Int.ofNat d3 * 0x10000))
  | _, _, _, _ => none

/-! ## `fpi_goodix_protocol_decode_image` -/

/-- The body of the loop of `fpi_goodix_protocol_decode_image` on the chunk
`c0 .. c5`: the four expressions are computed in `int` and stored into the
`guint8` cells of `buffer`. -/
def fpi_goodix_protocol_decode_image.chunk (c0 c1 c2 c3 c4 c5 : Nat) : List Nat :=
  [(((c0 &&& 0xf) <<< 8) + c1) % 256,
   ((c3 <<< 4) + (c0 >>> 4)) % 256,
   (((c5 &&& 0xf) <<< 8) + c2) % 256,
   ((c4 <<< 4) + (c5 >>> 4)) % 256]

/-- The loop of `fpi_goodix_protocol_decode_image`: `k` iterations are left,
`i` is the loop index and `decoded_image` the output so far. The index is a
`gint`: from `2 ^ 31` on it has wrapped to a negative value and
`image->data + i` points before the array. -/
def fpi_goodix_protocol_decode_image.loop (image : List Nat) :
    Nat → Nat → List Nat → Option (List Nat)
  | 0, _, decoded_image => some decoded_image
  | k + 1, i, decoded_image =>
    if 2 ^ 31 ≤ i then none
    else
      match image[i]?, image[i + 1]?, image[i + 2]?, image[i + 3]?, image[i + 4]?,
          image[i + 5]? with
      | some c0, some c1, some c2, some c3, some c4, some c5 =>
        fpi_goodix_protocol_decode_image.loop image k (i + 6)
          (decoded_image ++ fpi_goodix_protocol_decode_image.chunk c0 c1 c2 c3 c4 c5)
      | _, _, _, _, _, _ => none

/-- The function `fpi_goodix_protocol_decode_image` on the bytes of `image`
(`image->len` is the length of the list). The loop `for (i = 0; i < len;
i += 6)` runs once for each started chunk of 6 bytes. -/
def fpi_goodix_protocol_decode_image (image : List Nat) : Option (List Nat) :=
  fpi_goodix_protocol_decode_image.loop image ((image.length + 5) / 6) 0 []

/-- The simpler byte-level map of the image decoder, in the spec's words: every 6-byte chunk
`c0 .. c5` is sent to the 4 bytes `c1`, `((c3 & 0x0F) << 4) | (c0 >> 4)`,
`c2`, `((c4 & 0x0F) << 4) | (c5 >> 4)`. -/
def decodeImageSimple : List Nat → List Nat
  | c0 :: c1 :: c2 :: c3 :: c4 :: c5 :: rest =>
    [c1, ((c3 &&& 0x0F) <<< 4) ||| (c0 >>> 4), c2, ((c4 &&& 0x0F) <<< 4) ||| (c5 >>> 4)]
      ++ decodeImageSimple rest
  | _ => []

/-! ## `fpi_goodix_protocol_generate_fdt_base` -/

/-- The body of the loop of `fpi_goodix_protocol_generate_fdt_base` on the two
bytes `d0 = data[i]` and `d1 = data[i + 1]`: `fdt_val` and `fdt_base_val` are
`guint16`, the two cells of `buffer` are `guint8`. -/
def fpi_goodix_protocol_generate_fdt_base.word (d0 d1 : Nat) : List Nat :=
  -- guint16 fdt_val = fdt_data->data[i] | fdt_data->data[i + 1] << 8;
  let fdt_val := (d0 ||| (d1 <<< 8)) % 65536
  -- guint16 fdt_base_val = (fdt_val & 0xFFFE) * 0x80 | fdt_val >> 1;
  let fdt_base_val := (((fdt_val &&& 0xFFFE) * 0x80) ||| (fdt_val >>> 1)) % 65536
  [(fdt_base_val &&& 0xFF) % 256, (fdt_base_val >>> 8) % 256]

/-- The loop of `fpi_goodix_protocol_generate_fdt_base`: `k` iterations are
left, `i` is the `gint` loop index and `new_fdt_base` the output so far. -/
def fpi_goodix_protocol_generate_fdt_base.loop (data : List Nat) :
    Nat → Nat → List Nat → Option (List Nat)
  | 0, _, new_fdt_base => some new_fdt_base
  | k + 1, i, new_fdt_base =>
    if 2 ^ 31 ≤ i then none
    else
      match data[i]?, data[i + 1]? with
      | some d0, some d1 =>
        fpi_goodix_protocol_generate_fdt_base.loop data k (i + 2)
          (new_fdt_base ++ fpi_goodix_protocol_generate_fdt_base.word d0 d1)
      | _, _ => none

/-- The function `fpi_goodix_protocol_generate_fdt_base`. `data` is the memory
that can be read from `fdt_data->data` and `len` is `fdt_data->len`, so the
table is the first `len` cells of `data`. The loop `for (i = 0; i <= len;
i += 2)` runs for `i = 0, 2, ..., 2 * (len / 2)`, that is `len / 2 + 1`
times. -/
def fpi_goodix_protocol_generate_fdt_base (data : List Nat) (len : Nat) : Option (List Nat) :=
  fpi_goodix_protocol_generate_fdt_base.loop data (len / 2 + 1) 0 []

/-- The FDT base word in the spec's words: `((v & 0xFFFE) * 0x80) | (v >> 1)`,
low 16 bits. -/
def fdtBaseSpec (v : Nat) : Nat :=
  (((v &&& 0xFFFE) * 0x80) ||| (v >>> 1)) % 65536

/-- The FDT base table in the spec's words: each little-endian 16-bit word
`v` of the input is replaced by the little-endian bytes of its base word. -/
def fdtBaseTableSpec : List Nat → List Nat
  | d0 :: d1 :: rest =>
    [fdtBaseSpec (d0 + 256 * d1) % 256, fdtBaseSpec (d0 + 256 * d1) / 256]
      ++ fdtBaseTableSpec rest
  | _ => []

/-! ## Checksum lemmas -/

/-- The checksum loop adds, modulo 256, the `k` bytes from index `i` to its accumulator. -/
theorem calc_loop_eq (data : List Nat) :
    ∀ (k i c : Nat), i + k ≤ data.length → c < 256 →
      fpi_goodix_calc_checksum.loop data k i c
        = some ((c + ((data.drop i).take k).sum) % 256) := by
  intro k
  induction k with
  | zero =>
    intro i c _ hc
    simp [fpi_goodix_calc_checksum.loop, Nat.mod_eq_of_lt hc]
  | succ k ih =>
    intro i c hik hc
    have hi : i < data.length := by omega
    have hd : data.drop i = data[i] :: data.drop (i + 1) := List.drop_eq_getElem_cons hi
    rw [fpi_goodix_calc_checksum.loop, List.getElem?_eq_getElem hi]
    simp only []
    rw [ih (i + 1) ((c + data[i]) % 256) (by omega) (Nat.mod_lt _ (by decide)), hd]
    simp only [List.take_succ_cons, List.sum_cons]
    congr 1
    omega

theorem checksum_fold (s : Nat) :
    (((0xAA : Int) - ((s % 256 : Nat) : Int)) % 256).toNat
      = (((0xAA : Int) - (s : Int)) % 256).toNat := by
  congr 1
  push_cast
  omega

/-- The checksum routine on an in-bounds length is the spec checksum of the prefix of that
length, the length being taken modulo 65536. -/
theorem calc_checksum_eq (data : List Nat) (length : Nat)
    (h : length % 65536 ≤ data.length) :
    fpi_goodix_calc_checksum data length
      = some (checksumSpec (data.take (length % 65536))) := by
  unfold fpi_goodix_calc_checksum
  rw [calc_loop_eq data (length % 65536) 0 0 (by omega) (by decide)]
  simp only [List.drop_zero, Nat.zero_add, checksumSpec]
  rw [checksum_fold]

theorem checksumSpec_lt (l : List Nat) : checksumSpec l < 256 := by
  unfold checksumSpec
  omega

theorem checksumSpec_nil : checksumSpec [] = 0xAA := by decide

/-! ## Buffer lemmas -/

/-- Writing at the end of the part of a zeroed buffer that is already filled. -/
theorem writeBytes_zeros (buf a src : List Nat) (k off : Nat)
    (hbuf : buf = a ++ List.replicate k 0) (hoff : off = a.length) (hk : src.length ≤ k) :
    writeBytes buf off src = some (a ++ src ++ List.replicate (k - src.length) 0) := by
  subst hbuf hoff
  unfold writeBytes
  rw [if_pos (by simp; omega)]
  simp [List.take_left, List.drop_append]

theorem padded_len_bounds (B n4 : Nat) (hB : 0 < B) (hB32 : B < 2 ^ 32) (hn : n4 ≤ 65539) :
    n4 + (B - n4 % B) < 2 ^ 32 ∧ B ∣ n4 + (B - n4 % B) ∧ n4 < n4 + (B - n4 % B)
      ∧ n4 + (B - n4 % B) ≤ n4 + B := by
  have hlt : n4 % B < B := Nat.mod_lt _ hB
  have hle : n4 % B ≤ n4 := Nat.mod_le _ _
  refine ⟨?_, ?_, by omega, by omega⟩
  · by_cases h : n4 < B
    · rw [Nat.mod_eq_of_lt h]; omega
    · omega
  · have h1 : n4 + (B - n4 % B) = B * (n4 / B) + B := by
      have := Nat.div_add_mod n4 B
      omega
    rw [h1]
    exact Dvd.intro (n4 / B + 1) (by ring)

/-! ## Closed form of the encoder -/

theorem data_len_unpadded (B n : Nat) (hn : n < 65536) :
    fpi_goodix_protocol_encode.data_len B n false = n + 4 := by
  simp [fpi_goodix_protocol_encode.data_len, sizeof_GoodixDevicePack]
  omega

theorem data_len_padded (B n : Nat) (hn : n < 65536) (hB : 0 < B) (hB32 : B < 2 ^ 32) :
    B ∣ fpi_goodix_protocol_encode.data_len B n true
      ∧ n + 4 ≤ fpi_goodix_protocol_encode.data_len B n true
      ∧ fpi_goodix_protocol_encode.data_len B n true < n + 4 + B := by
  have h4 : (sizeof_GoodixDevicePack + n + 1) % 2 ^ 32 = n + 4 := by
    simp [sizeof_GoodixDevicePack]; omega
  obtain ⟨h1, h2, h3, h4'⟩ := padded_len_bounds B (n + 4) hB hB32 (by omega)
  unfold fpi_goodix_protocol_encode.data_len
  simp only [h4, Bool.true_and]
  by_cases hz : (n + 4) % B = 0
  · simp only [hz, bne_self_eq_false, Bool.false_eq_true, if_false]
    exact ⟨Nat.dvd_of_mod_eq_zero hz, le_refl _, by omega⟩
  · have hb : ((n + 4) % B != 0) = true := by simpa using hz
    simp only [hb, if_true]
    rw [Nat.mod_eq_of_lt h1]
    refine ⟨h2, by omega, ?_⟩
    have : 0 < (n + 4) % B := Nat.pos_of_ne_zero hz
    omega

theorem data_len_ge (B n : Nat) (pad : Bool) (hn : n < 65536)
    (hB : pad = true → 0 < B ∧ B < 2 ^ 32) :
    n + 4 ≤ fpi_goodix_protocol_encode.data_len B n pad := by
  cases pad with
  | false => rw [data_len_unpadded B n hn]
  | true => exact (data_len_padded B n hn (hB rfl).1 (hB rfl).2).2.1

/-- Closed form of the encoder for a payload below 65536 bytes: header, payload, checksum
byte and zero padding. The checksum covers the first `(3 + n) mod 65536` bytes. -/
theorem encode_eq (B : Nat) (msg : GoodixMessage) (cc pad : Bool)
    (hn : msg.payload.length < 65536) (hB : pad = true → 0 < B ∧ B < 2 ^ 32) :
    fpi_goodix_protocol_encode B msg cc pad
      = some ([((msg.category <<< 4) ||| (msg.command <<< 1)) % 256,
                (msg.payload.length + 1) % 65536 % 256,
                (msg.payload.length + 1) % 65536 / 256]
              ++ msg.payload
              ++ [if cc then
                    checksumSpec
                      (([((msg.category <<< 4) ||| (msg.command <<< 1)) % 256,
                          (msg.payload.length + 1) % 65536 % 256,
                          (msg.payload.length + 1) % 65536 / 256]
                        ++ msg.payload).take ((3 + msg.payload.length) % 65536))
                  else 0x88]
              ++ List.replicate
                  (fpi_goodix_protocol_encode.data_len B msg.payload.length pad
                    - (msg.payload.length + 4)) 0,
              fpi_goodix_protocol_encode.data_len B msg.payload.length pad) := by
  have hN := data_len_ge B msg.payload.length pad hn hB
  generalize hNdef : fpi_goodix_protocol_encode.data_len B msg.payload.length pad = N at hN
  generalize hc : ((msg.category <<< 4) ||| (msg.command <<< 1)) % 256 = c
  generalize hl : (msg.payload.length + 1) % 65536 = l
  have hguard : (pad && B == 0) = false := by
    cases pad with
    | false => rfl
    | true => have := (hB rfl).1; simp; omega
  unfold fpi_goodix_protocol_encode
  simp only [Nat.mod_eq_of_lt hn, hguard, hNdef, hc, hl, Bool.false_eq_true, if_false,
    List.take_length, sizeof_GoodixDevicePack, GOODIX_NULL_CHECKSUM]
  rw [writeBytes_zeros (List.replicate N 0) [] [c] N 0 rfl rfl (by simp; omega)]
  simp only [List.nil_append, List.length_singleton]
  rw [writeBytes_zeros ([c] ++ List.replicate (N - 1) 0) [c] [l % 256, l / 256] (N - 1) 1
    rfl rfl (by simp; omega)]
  simp only [List.length_cons, List.length_nil]
  rw [writeBytes_zeros ([c] ++ [l % 256, l / 256] ++ List.replicate (N - 1 - (0 + 1 + 1)) 0)
    [c, l % 256, l / 256] msg.payload (N - 1 - (0 + 1 + 1)) 3 rfl rfl (by omega)]
  simp only []
  cases cc with
  | false =>
    simp only [Bool.false_eq_true, if_false]
    rw [writeBytes_zeros _ ([c, l % 256, l / 256] ++ msg.payload) [0x88]
      (N - 1 - (0 + 1 + 1) - msg.payload.length) (3 + msg.payload.length) rfl
      (by simp; omega) (by simp; omega)]
    simp only [List.length_singleton]
    have : N - 1 - (0 + 1 + 1) - msg.payload.length - 1 = N - (msg.payload.length + 4) := by
      omega
    rw [this]
  | true =>
    simp only [if_true]
    rw [calc_checksum_eq _ _ (by simp; omega)]
    simp only []
    have htake : List.take ((3 + msg.payload.length) % 65536)
        ([c, l % 256, l / 256] ++ msg.payload
          ++ List.replicate (N - 1 - (0 + 1 + 1) - msg.payload.length) 0)
        = List.take ((3 + msg.payload.length) % 65536) ([c, l % 256, l / 256] ++ msg.payload) := by
      apply List.take_append_of_le_length
      simp
      have := Nat.mod_le (3 + msg.payload.length) 65536
      omega
    rw [htake]
    rw [writeBytes_zeros _ ([c, l % 256, l / 256] ++ msg.payload) _
      (N - 1 - (0 + 1 + 1) - msg.payload.length) (3 + msg.payload.length) rfl
      (by simp; omega) (by simp; omega)]
    simp only [List.length_singleton]
    have : N - 1 - (0 + 1 + 1) - msg.payload.length - 1 = N - (msg.payload.length + 4) := by
      omega
    rw [this]

/-! ## Closed form of the decoder -/

theorem decode_message_eq (data : List Nat) (cmd L : Nat) (h0 : data[0]? = some cmd)
    (hL1 : 1 ≤ L) (hL32 : L < 2 ^ 32) (hlen : L + 2 ≤ data.length) :
    fpi_goodix_protocol_decode.message data L
      = some { category := cmd >>> 4, command := (cmd &&& 0xF) >>> 1,
               payload := (data.drop 3).take (L - 1) } := by
  have hcount : (((L : Int) - 1) % 2 ^ 32).toNat = L - 1 := by omega
  unfold fpi_goodix_protocol_decode.message
  simp only [h0, hcount, readBytes, sizeof_GoodixDevicePack]
  rw [if_pos (by omega)]

/-- Closed form of the decoder on a buffer that holds the `L + 3` bytes its length field
declares. -/
theorem decode_eq (data : List Nat) (cmd lo hi b : Nat)
    (h0 : data[0]? = some cmd) (h1 : data[1]? = some lo) (h2 : data[2]? = some hi)
    (hL1 : 1 ≤ lo + 256 * hi) (hL32 : lo + 256 * hi + 2 < 2 ^ 32)
    (hlen : lo + 256 * hi + 3 ≤ data.length)
    (hb : data[lo + 256 * hi + 2]? = some b) :
    fpi_goodix_protocol_decode data
      = if b ≠ 0x88 ∧ b ≠ checksumSpec (data.take ((lo + 256 * hi + 2) % 65536)) then
          some (.error (wrongChecksum
            (checksumSpec (data.take ((lo + 256 * hi + 2) % 65536))) b))
        else
          some (.ok { category := cmd >>> 4, command := (cmd &&& 0xF) >>> 1,
                      payload := (data.drop 3).take (lo + 256 * hi - 1) }) := by
  have hdl : (sizeof_GoodixDevicePack + (lo + 256 * hi) - 1) % 2 ^ 32 = lo + 256 * hi + 2 := by
    simp only [sizeof_GoodixDevicePack]; omega
  have hmsg := decode_message_eq data cmd (lo + 256 * hi) h0 hL1 (by omega) (by omega)
  have hcs := calc_checksum_eq data (lo + 256 * hi + 2)
    (by have := Nat.mod_le (lo + 256 * hi + 2) 65536; omega)
  unfold fpi_goodix_protocol_decode
  simp only [h1, h2, hdl, hb, hcs, hmsg, Option.map_some']
  by_cases h88 : b = 0x88
  · subst h88
    simp
  · by_cases hc : b = checksumSpec (data.take ((lo + 256 * hi + 2) % 65536))
    · simp [h88, ← hc]
    · simp [h88, hc]

/-- The decoder on a buffer laid out as header, payload, checksum byte and a tail. -/
theorem decode_frame (c l0 l1 : Nat) (payload : List Nat) (b : Nat) (tail : List Nat)
    (hL : l0 + 256 * l1 = payload.length + 1) (hn : payload.length + 3 < 2 ^ 32) :
    fpi_goodix_protocol_decode ([c, l0, l1] ++ payload ++ [b] ++ tail)
      = if b ≠ 0x88 ∧
            b ≠ checksumSpec (([c, l0, l1] ++ payload).take ((payload.length + 3) % 65536)) then
          some (.error (wrongChecksum
            (checksumSpec (([c, l0, l1] ++ payload).take ((payload.length + 3) % 65536))) b))
        else
          some (.ok { category := c >>> 4, command := (c &&& 0xF) >>> 1, payload := payload }) := by
  have hb : ([c, l0, l1] ++ payload ++ [b] ++ tail)[l0 + 256 * l1 + 2]? = some b := by
    rw [hL, List.append_assoc, List.getElem?_append_right (by simp)]
    simp
  have htake : List.take ((l0 + 256 * l1 + 2) % 65536) ([c, l0, l1] ++ payload ++ [b] ++ tail)
      = List.take ((payload.length + 3) % 65536) ([c, l0, l1] ++ payload) := by
    rw [hL, List.append_assoc]
    have : (payload.length + 1 + 2) = payload.length + 3 := by omega
    rw [this]
    apply List.take_append_of_le_length
    have := Nat.mod_le (payload.length + 3) 65536
    simp
    omega
  have hdrop : List.take (l0 + 256 * l1 - 1) (List.drop 3 ([c, l0, l1] ++ payload ++ [b] ++ tail))
      = payload := by
    rw [hL]
    simp
  rw [decode_eq _ c l0 l1 b (by simp) (by simp) (by simp) (by omega) (by omega)
    (by simp; omega) hb, htake, hdrop]

theorem cmd_fields : ∀ category < 16, ∀ command < 8,
    (((category <<< 4) ||| (command <<< 1)) % 256) >>> 4 = category
      ∧ ((((category <<< 4) ||| (command <<< 1)) % 256) &&& 0xF) >>> 1 = command
      ∧ (((category <<< 4) ||| (command <<< 1)) % 256) = (category <<< 4) ||| (command <<< 1)
      ∧ (((category <<< 4) ||| (command <<< 1)) % 256) % 2 = 0 := by
  decide

theorem length_field (n : Nat) (hn : n ≤ 65534) :
    (n + 1) % 65536 % 256 + 256 * ((n + 1) % 65536 / 256) = n + 1 := by
  omega

/-! ## Corruption of one payload byte -/

/-- Replacing one element of a list changes the sum by the difference of the two values. -/
theorem sum_set_add (l : List Nat) :
    ∀ (i v : Nat) (h : i < l.length), (l.set i v).sum + l[i] = l.sum + v := by
  induction l with
  | nil => intro i v h; simp at h
  | cons a l ih =>
    intro i v h
    cases i with
    | zero => simp; omega
    | succ i =>
      have := ih i v (by simpa using h)
      simp only [List.set_cons_succ, List.sum_cons, List.getElem_cons_succ]
      omega

theorem checksumSpec_ne (a b : List Nat) (h : a.sum % 256 ≠ b.sum % 256) :
    checksumSpec a ≠ checksumSpec b := by
  unfold checksumSpec
  omega

theorem set_frame (c l0 l1 : Nat) (payload : List Nat) (b : Nat) (tail : List Nat)
    (i v : Nat) (hi : i < payload.length) :
    ([c, l0, l1] ++ payload ++ [b] ++ tail).set (3 + i) v
      = [c, l0, l1] ++ payload.set i v ++ [b] ++ tail := by
  rw [List.append_assoc, List.append_assoc, List.set_append_right _ _ (by simp)]
  rw [List.set_append_left _ _ (by simpa using hi)]
  simp

/-- Replacing one payload byte of a checksummed frame whose checksum is not the sentinel:
the decoder reports the recomputed checksum against the stored one, and the two differ. -/
theorem corrupt_frame (c l0 l1 : Nat) (payload : List Nat) (i v : Nat)
    (hL : l0 + 256 * l1 = payload.length + 1) (hn : payload.length + 3 < 65536)
    (hbytes : IsBytes payload) (hi : i < payload.length) (hv : v < 256)
    (hne : v ≠ payload[i]) (h88 : checksumSpec ([c, l0, l1] ++ payload) ≠ 0x88) :
    fpi_goodix_protocol_decode
        (([c, l0, l1] ++ payload ++ [checksumSpec ([c, l0, l1] ++ payload)] ++ []).set (3 + i) v)
      = some (.error (wrongChecksum (checksumSpec ([c, l0, l1] ++ payload.set i v))
          (checksumSpec ([c, l0, l1] ++ payload))))
      ∧ checksumSpec ([c, l0, l1] ++ payload.set i v) ≠ checksumSpec ([c, l0, l1] ++ payload) := by
  have hb : payload[i] < 256 := hbytes _ (List.getElem_mem hi)
  have hsum := sum_set_add payload i v hi
  have hdiff : checksumSpec ([c, l0, l1] ++ payload.set i v)
      ≠ checksumSpec ([c, l0, l1] ++ payload) := by
    apply checksumSpec_ne
    simp only [List.sum_append, List.sum_cons, List.sum_nil]
    omega
  refine ⟨?_, hdiff⟩
  rw [set_frame c l0 l1 payload _ [] i v hi,
    decode_frame c l0 l1 (payload.set i v) _ [] (by simpa using hL) (by simp; omega)]
  have htake : List.take (((payload.set i v).length + 3) % 65536) ([c, l0, l1] ++ payload.set i v)
      = [c, l0, l1] ++ payload.set i v := by
    apply List.take_of_length_le
    simp
    omega
  rw [htake, if_pos ⟨h88, fun h => hdiff h.symm⟩]

theorem take_header (c l0 l1 : Nat) (payload : List Nat) (k : Nat)
    (h : payload.length + 3 ≤ k) :
    List.take k ([c, l0, l1] ++ payload) = [c, l0, l1] ++ payload := by
  apply List.take_of_length_le
  simp
  omega

/-- The unpadded, checksummed encoding of a payload of at most 65532 bytes. -/
theorem encode_unpadded (B : Nat) (msg : GoodixMessage) (hn : msg.payload.length ≤ 65532) :
    fpi_goodix_protocol_encode B msg true false
      = some ([((msg.category <<< 4) ||| (msg.command <<< 1)) % 256,
                (msg.payload.length + 1) % 65536 % 256,
                (msg.payload.length + 1) % 65536 / 256]
              ++ msg.payload
              ++ [checksumSpec
                    ([((msg.category <<< 4) ||| (msg.command <<< 1)) % 256,
                      (msg.payload.length + 1) % 65536 % 256,
                      (msg.payload.length + 1) % 65536 / 256] ++ msg.payload)]
              ++ [],
              msg.payload.length + 4) := by
  rw [encode_eq B msg true false (by omega) (by simp), data_len_unpadded B _ (by omega)]
  rw [take_header _ _ _ _ _ (by omega)]
  simp

theorem frame_checksum_index (c l0 l1 : Nat) (payload : List Nat) (b : Nat) (tail : List Nat) :
    ([c, l0, l1] ++ payload ++ [b] ++ tail)[3 + payload.length]? = some b := by
  have h : 3 + payload.length = ([c, l0, l1] ++ payload).length + 0 := by simp; omega
  rw [h, List.append_assoc, List.getElem?_append_right (by omega)]
  simp

/-! ## Long payloads -/

/-- With a payload of 65533 bytes the checksummed length 65536 wraps to 0 in the `guint16`
parameter and the checksum byte is that of the empty sequence. -/
theorem encode_wrapped_checksum (B : Nat) (msg : GoodixMessage)
    (hlen : msg.payload.length = 65533) :
    fpi_goodix_protocol_encode B msg true false
      = some ([((msg.category <<< 4) ||| (msg.command <<< 1)) % 256, 0xFE, 0xFF]
              ++ msg.payload ++ [0xAA], 65537) := by
  rw [encode_eq B msg true false (by omega) (by simp), data_len_unpadded B _ (by omega), hlen]
  have h0 : (3 + 65533) % 65536 = 0 := by decide
  have h1 : (65533 + 1) % 65536 % 256 = 0xFE := by decide
  have h2 : (65533 + 1) % 65536 / 256 = 0xFF := by decide
  have h3 : 65533 + 4 - (65533 + 4) = 0 := by decide
  rw [h0, h1, h2, h3]
  simp only [List.take_zero, checksumSpec_nil, if_true, List.replicate_zero, List.append_nil]

/-- For a payload of at most 65532 bytes the byte after the payload is the checksum of
header and payload when `calc_checksum` is set, and the sentinel otherwise, with or without
padding. -/
theorem encode_checksum_byte_in_range (B : Nat) (msg : GoodixMessage) (cc pad : Bool)
    (hn : msg.payload.length ≤ 65532) (hB : pad = true → 0 < B ∧ B < 2 ^ 32) :
    ∃ data data_len,
      fpi_goodix_protocol_encode B msg cc pad = some (data, data_len)
      ∧ data[3 + msg.payload.length]?
        = some (if cc then
            checksumSpec
              ([((msg.category <<< 4) ||| (msg.command <<< 1)) % 256,
                (msg.payload.length + 1) % 256, (msg.payload.length + 1) / 256]
                ++ msg.payload)
          else 0x88) := by
  have hmod : (msg.payload.length + 1) % 65536 = msg.payload.length + 1 := by omega
  refine ⟨_, _, encode_eq B msg cc pad (by omega) hB, ?_⟩
  rw [frame_checksum_index, take_header _ _ _ _ _ (by omega), hmod]

/-! ## The OTP hash loop -/

/-- The OTP loop computes the fold of the table step over the indices `i, ..., i + k - 1`
other than 25, and the state stays a byte. -/
theorem otp_loop_eq (otp table : List Nat) (hotp : IsBytes otp)
    (htl : table.length = 256) (htb : IsBytes table) :
    ∀ (k i c : Nat), i + k ≤ otp.length → c < 256 →
      fpi_goodix_protocol_compute_otp_hash.loop otp table k i c
          = some (((List.range' i k).filter (fun j => j != 25)).foldl
              (fun state j => table.getD (state ^^^ otp.getD j 0) 0) c)
        ∧ ((List.range' i k).filter (fun j => j != 25)).foldl
              (fun state j => table.getD (state ^^^ otp.getD j 0) 0) c < 256 := by
  intro k
  induction k with
  | zero =>
    intro i c _ hc
    simp [fpi_goodix_protocol_compute_otp_hash.loop, hc]
  | succ k ih =>
    intro i c hik hc
    have hi : i < otp.length := by omega
    rw [fpi_goodix_protocol_compute_otp_hash.loop, List.range'_succ]
    by_cases h25 : i = 25
    · subst h25
      simpa using ih 26 c (by omega) hc
    · have hb : otp[i] < 256 := hotp _ (List.getElem_mem hi)
      have hx : c ^^^ otp[i] < table.length := by
        rw [htl]
        exact Nat.xor_lt_two_pow (n := 8) hc hb
      have ht : table[c ^^^ otp[i]] < 256 := htb _ (List.getElem_mem hx)
      have hstep := ih (i + 1) (table[c ^^^ otp[i]]) (by omega) ht
      have hne : (i != 25) = true := by simpa using h25
      have hbeq : (i == 25) = false := by simpa using h25
      simp only [hbeq, Bool.false_eq_true, if_false, List.getElem?_eq_getElem hi,
        List.getElem?_eq_getElem hx, List.filter_cons, hne, if_true, List.foldl_cons,
        List.getD_eq_getElem?_getD, Option.getD_some]
      simpa [List.getD_eq_getElem?_getD] using hstep

set_option maxRecDepth 100000 in
theorem complement_byte :
    ∀ c : Nat, c < 256 → ((-(c : Int) - 1) % 256).toNat = (c ^^^ 0xFF : Nat) := by
  decide

/-! ## The image decoder -/

/-- A shifted value and a value below the shift have no bit in common. -/
theorem shiftLeft_or_low (a b i : Nat) (hb : b < 2 ^ i) : (a <<< i) ||| b = a * 2 ^ i + b := by
  rw [Nat.shiftLeft_eq, Nat.mul_comm, ← Nat.mul_add_lt_is_or hb]

/-- On bytes the loop body of the image decoder is the simpler byte-level map. -/
theorem image_chunk_simple (c0 c1 c2 c3 c4 c5 : Nat)
    (h0 : c0 < 256) (h1 : c1 < 256) (h2 : c2 < 256) (h5 : c5 < 256) :
    fpi_goodix_protocol_decode_image.chunk c0 c1 c2 c3 c4 c5
      = [c1, ((c3 &&& 0x0F) <<< 4) ||| (c0 >>> 4), c2, ((c4 &&& 0x0F) <<< 4) ||| (c5 >>> 4)] := by
  have hand : ∀ x : Nat, x &&& 0xF = x % 16 := fun x => Nat.and_pow_two_sub_one_eq_mod x 4
  have hs0 : c0 >>> 4 = c0 / 16 := Nat.shiftRight_eq_div_pow c0 4
  have hs5 : c5 >>> 4 = c5 / 16 := Nat.shiftRight_eq_div_pow c5 4
  have ho3 := shiftLeft_or_low (c3 % 16) (c0 / 16) 4 (by omega)
  have ho4 := shiftLeft_or_low (c4 % 16) (c5 / 16) 4 (by omega)
  unfold fpi_goodix_protocol_decode_image.chunk
  simp only [hand, hs0, hs5]
  rw [ho3, ho4]
  simp only [Nat.shiftLeft_eq]
  refine congrArg₂ _ (by omega) (congrArg₂ _ (by omega) (congrArg₂ _ (by omega)
    (congrArg₂ _ (by omega) rfl)))

/-- On bytes the simpler map agrees with the documented formulas, reduced to 8 bits. -/
theorem image_simple_documented (c0 c1 c2 c3 c4 c5 : Nat)
    (h0 : c0 < 256) (h1 : c1 < 256) (h2 : c2 < 256) (h5 : c5 < 256) :
    c1 = (((c0 &&& 0x0F) <<< 8) ||| c1) % 256
      ∧ ((c3 &&& 0x0F) <<< 4) ||| (c0 >>> 4) = ((c3 <<< 4) ||| (c0 >>> 4)) % 256
      ∧ c2 = (((c5 &&& 0x0F) <<< 8) ||| c2) % 256
      ∧ ((c4 &&& 0x0F) <<< 4) ||| (c5 >>> 4) = ((c4 <<< 4) ||| (c5 >>> 4)) % 256 := by
  have hand : ∀ x : Nat, x &&& 0xF = x % 16 := fun x => Nat.and_pow_two_sub_one_eq_mod x 4
  have hs0 : c0 >>> 4 = c0 / 16 := Nat.shiftRight_eq_div_pow c0 4
  have hs5 : c5 >>> 4 = c5 / 16 := Nat.shiftRight_eq_div_pow c5 4
  have ho3 := shiftLeft_or_low (c3 % 16) (c0 / 16) 4 (by omega)
  have ho4 := shiftLeft_or_low (c4 % 16) (c5 / 16) 4 (by omega)
  have ho3' := shiftLeft_or_low c3 (c0 / 16) 4 (by omega)
  have ho4' := shiftLeft_or_low c4 (c5 / 16) 4 (by omega)
  have ho1 := shiftLeft_or_low (c0 % 16) c1 8 (by omega)
  have ho2 := shiftLeft_or_low (c5 % 16) c2 8 (by omega)
  simp only [hand, hs0, hs5, ho3, ho4, ho3', ho4', ho1, ho2]
  refine ⟨by omega, by omega, by omega, by omega⟩

/-- Six in-bounds cells from index `i` are the head of the list dropped at `i`. -/
theorem drop_six (l : List Nat) (i : Nat) (h : i + 6 ≤ l.length) :
    l.drop i = l[i] :: l[i + 1] :: l[i + 2] :: l[i + 3] :: l[i + 4] :: l[i + 5]
      :: l.drop (i + 6) := by
  rw [List.drop_eq_getElem_cons (by omega : i < l.length),
    List.drop_eq_getElem_cons (by omega : i + 1 < l.length),
    List.drop_eq_getElem_cons (by omega : i + 1 + 1 < l.length),
    List.drop_eq_getElem_cons (by omega : i + 1 + 1 + 1 < l.length),
    List.drop_eq_getElem_cons (by omega : i + 1 + 1 + 1 + 1 < l.length),
    List.drop_eq_getElem_cons (by omega : i + 1 + 1 + 1 + 1 + 1 < l.length)]

/-- Closed form of the image loop on bytes: with `k` whole chunks left from
index `i` and all indices in the range of `gint`, the loop appends the simpler
map of the remaining input. -/
theorem image_loop_eq (image : List Nat) (hbytes : IsBytes image)
    (h31 : image.length < 2 ^ 31) :
    ∀ (k i : Nat) (decoded : List Nat), image.length = i + 6 * k →
      fpi_goodix_protocol_decode_image.loop image k i decoded
        = some (decoded ++ decodeImageSimple (image.drop i)) := by
  intro k
  induction k with
  | zero =>
    intro i decoded hlen
    have hd : image.drop i = [] := List.drop_eq_nil_of_le (by omega)
    simp [fpi_goodix_protocol_decode_image.loop, hd, decodeImageSimple]
  | succ k ih =>
    intro i decoded hlen
    have hi : i + 6 ≤ image.length := by omega
    have hb : ∀ j (hj : j < image.length), image[j] < 256 :=
      fun j hj => hbytes _ (List.getElem_mem hj)
    rw [fpi_goodix_protocol_decode_image.loop, if_neg (by omega),
      List.getElem?_eq_getElem (by omega : i < image.length),
      List.getElem?_eq_getElem (by omega : i + 1 < image.length),
      List.getElem?_eq_getElem (by omega : i + 2 < image.length),
      List.getElem?_eq_getElem (by omega : i + 3 < image.length),
      List.getElem?_eq_getElem (by omega : i + 4 < image.length),
      List.getElem?_eq_getElem (by omega : i + 5 < image.length)]
    simp only []
    rw [ih (i + 6) _ (by omega), drop_six image i hi, decodeImageSimple,
      image_chunk_simple _ _ _ _ _ _ (hb _ _) (hb _ _) (hb _ _) (hb _ _), List.append_assoc]

/-- The image decoder on bytes, for a length that is a multiple of 6 and fits
the `gint` index: the result is the simpler map of the input. -/
theorem decode_image_eq (image : List Nat) (hbytes : IsBytes image)
    (hlen : image.length % 6 = 0) (h31 : image.length < 2 ^ 31) :
    fpi_goodix_protocol_decode_image image = some (decodeImageSimple image) := by
  unfold fpi_goodix_protocol_decode_image
  rw [image_loop_eq image hbytes h31 _ 0 [] (by omega)]
  simp

/-- The simpler map, index by index: the output has 4 bytes for each 6-byte
chunk of the input, and chunk `k` of the output is computed from chunk `k` of
the input. -/
theorem decodeImageSimple_index :
    ∀ (m : Nat) (l : List Nat), l.length = 6 * m →
      (decodeImageSimple l).length = 4 * m
      ∧ ∀ k, k < m →
          (decodeImageSimple l)[4 * k]? = some (l.getD (6 * k + 1) 0)
          ∧ (decodeImageSimple l)[4 * k + 1]?
              = some (((l.getD (6 * k + 3) 0 &&& 0x0F) <<< 4) ||| (l.getD (6 * k) 0 >>> 4))
          ∧ (decodeImageSimple l)[4 * k + 2]? = some (l.getD (6 * k + 2) 0)
          ∧ (decodeImageSimple l)[4 * k + 3]?
              = some (((l.getD (6 * k + 4) 0 &&& 0x0F) <<< 4) ||| (l.getD (6 * k + 5) 0 >>> 4)) := by
  intro m
  induction m with
  | zero =>
    intro l hl
    have : l = [] := List.length_eq_zero.mp (by omega)
    subst this
    exact ⟨rfl, fun k hk => absurd hk (by omega)⟩
  | succ m ih =>
    intro l hl
    have hd := drop_six l 0 (by omega)
    rw [List.drop_zero] at hd
    obtain ⟨hlen, hidx⟩ := ih (l.drop 6) (by simp; omega)
    generalize l.drop (0 + 6) = rest at hd
    have hrest : rest = l.drop 6 := by rw [hd]; rfl
    rw [← hrest] at hlen hidx
    generalize l[0] = c0 at hd
    generalize l[0 + 1] = c1 at hd
    generalize l[0 + 2] = c2 at hd
    generalize l[0 + 3] = c3 at hd
    generalize l[0 + 4] = c4 at hd
    generalize l[0 + 5] = c5 at hd
    subst hd
    refine ⟨by simp [decodeImageSimple, hlen]; omega, ?_⟩
    intro k hk
    cases k with
    | zero => simp [decodeImageSimple]
    | succ k =>
      obtain ⟨e0, e1, e2, e3⟩ := hidx k (by omega)
      have a0 : 4 * (k + 1) = 4 * k + 1 + 1 + 1 + 1 := by omega
      have a1 : 4 * (k + 1) + 1 = 4 * k + 1 + 1 + 1 + 1 + 1 := by omega
      have a2 : 4 * (k + 1) + 2 = 4 * k + 2 + 1 + 1 + 1 + 1 := by omega
      have a3 : 4 * (k + 1) + 3 = 4 * k + 3 + 1 + 1 + 1 + 1 := by omega
      have b0 : 6 * (k + 1) = 6 * k + 1 + 1 + 1 + 1 + 1 + 1 := by omega
      have b1 : 6 * (k + 1) + 1 = 6 * k + 1 + 1 + 1 + 1 + 1 + 1 + 1 := by omega
      have b2 : 6 * (k + 1) + 2 = 6 * k + 2 + 1 + 1 + 1 + 1 + 1 + 1 := by omega
      have b3 : 6 * (k + 1) + 3 = 6 * k + 3 + 1 + 1 + 1 + 1 + 1 + 1 := by omega
      have b4 : 6 * (k + 1) + 4 = 6 * k + 4 + 1 + 1 + 1 + 1 + 1 + 1 := by omega
      have b5 : 6 * (k + 1) + 5 = 6 * k + 5 + 1 + 1 + 1 + 1 + 1 + 1 := by omega
      rw [a1, a2, a3, a0, b1, b2, b3, b4, b5, b0]
      simp only [decodeImageSimple, List.cons_append, List.nil_append, List.getElem?_cons_succ,
        List.getD_cons_succ]
      exact ⟨e0, e1, e2, e3⟩

/-- A cell of a buffer of bytes, read with default 0, is a byte. -/
theorem getD_lt_of_isBytes (l : List Nat) (hbytes : IsBytes l) (i : Nat) : l.getD i 0 < 256 := by
  by_cases h : i < l.length
  · rw [List.getD_eq_getElem _ _ h]
    exact hbytes _ (List.getElem_mem h)
  · rw [List.getD_eq_default _ _ (by omega)]
    decide

/-- The simpler map gives the same output on two inputs of the same length
6 * m that agree, chunk by chunk, on `c1`, `c2`, the high nibbles of `c0` and
`c5` and the low nibbles of `c3` and `c4`. -/
theorem decodeImageSimple_congr (m : Nat) (a b : List Nat)
    (ha : a.length = 6 * m) (hb : b.length = 6 * m)
    (h : ∀ k, k < m →
      a.getD (6 * k + 1) 0 = b.getD (6 * k + 1) 0
      ∧ a.getD (6 * k + 2) 0 = b.getD (6 * k + 2) 0
      ∧ a.getD (6 * k) 0 >>> 4 = b.getD (6 * k) 0 >>> 4
      ∧ a.getD (6 * k + 5) 0 >>> 4 = b.getD (6 * k + 5) 0 >>> 4
      ∧ a.getD (6 * k + 3) 0 &&& 0x0F = b.getD (6 * k + 3) 0 &&& 0x0F
      ∧ a.getD (6 * k + 4) 0 &&& 0x0F = b.getD (6 * k + 4) 0 &&& 0x0F) :
    decodeImageSimple a = decodeImageSimple b := by
  obtain ⟨hla, hia⟩ := decodeImageSimple_index m a ha
  obtain ⟨hlb, hib⟩ := decodeImageSimple_index m b hb
  apply List.ext_getElem?
  intro n
  by_cases hn : n < 4 * m
  · obtain ⟨a0, a1, a2, a3⟩ := hia (n / 4) (by omega)
    obtain ⟨b0, b1, b2, b3⟩ := hib (n / 4) (by omega)
    obtain ⟨h1, h2, h0, h5, h3, h4⟩ := h (n / 4) (by omega)
    have hcases : n = 4 * (n / 4) ∨ n = 4 * (n / 4) + 1 ∨ n = 4 * (n / 4) + 2
        ∨ n = 4 * (n / 4) + 3 := by omega
    rcases hcases with e | e | e | e
    · rw [e, a0, b0, h1]
    · rw [e, a1, b1, h3, h0]
    · rw [e, a2, b2, h2]
    · rw [e, a3, b3, h4, h5]
  · rw [List.getElem?_eq_none (by omega), List.getElem?_eq_none (by omega)]

/-! ## The FDT base transform -/

/-- On bytes the loop body of the FDT transform emits the little-endian bytes
of the base word of the little-endian input word. -/
theorem fdt_word_spec (d0 d1 : Nat) (h0 : d0 < 256) (h1 : d1 < 256) :
    fpi_goodix_protocol_generate_fdt_base.word d0 d1
      = [fdtBaseSpec (d0 + 256 * d1) % 256, fdtBaseSpec (d0 + 256 * d1) / 256] := by
  have hv : (d0 ||| (d1 <<< 8)) % 65536 = d0 + 256 * d1 := by
    rw [Nat.or_comm, shiftLeft_or_low d1 d0 8 (by omega)]
    omega
  have hlt : fdtBaseSpec (d0 + 256 * d1) < 65536 := Nat.mod_lt _ (by decide)
  have hand : ∀ x : Nat, x &&& 0xFF = x % 256 := fun x => Nat.and_pow_two_sub_one_eq_mod x 8
  have hshift : ∀ x : Nat, x >>> 8 = x / 256 := fun x => Nat.shiftRight_eq_div_pow x 8
  unfold fpi_goodix_protocol_generate_fdt_base.word
  simp only [hv]
  change [(fdtBaseSpec (d0 + 256 * d1) &&& 0xFF) % 256,
    (fdtBaseSpec (d0 + 256 * d1) >>> 8) % 256] = _
  rw [hand, hshift]
  refine congrArg₂ _ (by omega) (congrArg₂ _ (by omega) rfl)

/-- Closed form of the FDT loop on bytes: `k` iterations from index `i`, all
within the readable memory and the range of `gint`, append the spec table of
the `2 * k` cells read. -/
theorem fdt_loop_eq (data : List Nat) (hbytes : IsBytes data) :
    ∀ (k i : Nat) (acc : List Nat), i + 2 * k ≤ data.length → i + 2 * k ≤ 2 ^ 31 →
      fpi_goodix_protocol_generate_fdt_base.loop data k i acc
        = some (acc ++ fdtBaseTableSpec ((data.drop i).take (2 * k))) := by
  intro k
  induction k with
  | zero =>
    intro i acc _ _
    simp [fpi_goodix_protocol_generate_fdt_base.loop, fdtBaseTableSpec]
  | succ k ih =>
    intro i acc hlen h31
    have hb : ∀ j (hj : j < data.length), data[j] < 256 :=
      fun j hj => hbytes _ (List.getElem_mem hj)
    have hd : data.drop i = data[i] :: data[i + 1] :: data.drop (i + 2) := by
      rw [List.drop_eq_getElem_cons (by omega : i < data.length),
        List.drop_eq_getElem_cons (by omega : i + 1 < data.length)]
    have ht : ∀ (a b : Nat) (l : List Nat),
        List.take (2 * (k + 1)) (a :: b :: l) = a :: b :: List.take (2 * k) l := by
      intro a b l
      have h2 : 2 * (k + 1) = 2 * k + 1 + 1 := by omega
      rw [h2]
      rfl
    rw [fpi_goodix_protocol_generate_fdt_base.loop, if_neg (by omega),
      List.getElem?_eq_getElem (by omega : i < data.length),
      List.getElem?_eq_getElem (by omega : i + 1 < data.length)]
    simp only []
    rw [ih (i + 2) _ (by omega) (by omega), hd, ht,
      fdtBaseTableSpec, fdt_word_spec _ _ (hb _ _) (hb _ _), List.append_assoc]

/-- The FDT transform on bytes: when the two cells after the table can be read
and the length fits the `gint` index, the result is the spec table of the
first `2 * (len / 2 + 1)` cells, one word more than the table holds. -/
theorem generate_fdt_base_eq (data : List Nat) (len : Nat) (hbytes : IsBytes data)
    (hmem : 2 * (len / 2 + 1) ≤ data.length) (h31 : len < 2 ^ 31 - 1) :
    fpi_goodix_protocol_generate_fdt_base data len
      = some (fdtBaseTableSpec (data.take (2 * (len / 2 + 1)))) := by
  unfold fpi_goodix_protocol_generate_fdt_base
  rw [fdt_loop_eq data hbytes _ 0 [] (by omega) (by omega)]
  simp

/-- The spec table, index by index, on an input of at least `2 * m` cells. -/
theorem fdtBaseTableSpec_index :
    ∀ (m : Nat) (l : List Nat), l.length = 2 * m →
      (fdtBaseTableSpec l).length = 2 * m
      ∧ ∀ k, k < m →
          (fdtBaseTableSpec l)[2 * k]?
            = some (fdtBaseSpec (l.getD (2 * k) 0 + 256 * l.getD (2 * k + 1) 0) % 256)
          ∧ (fdtBaseTableSpec l)[2 * k + 1]?
            = some (fdtBaseSpec (l.getD (2 * k) 0 + 256 * l.getD (2 * k + 1) 0) / 256) := by
  intro m
  induction m with
  | zero =>
    intro l hl
    have : l = [] := List.length_eq_zero.mp (by omega)
    subst this
    exact ⟨rfl, fun k hk => absurd hk (by omega)⟩
  | succ m ih =>
    intro l hl
    rcases l with _ | ⟨d0, _ | ⟨d1, rest⟩⟩
    · simp at hl
    · simp at hl; omega
    · obtain ⟨hlen, hidx⟩ := ih rest (by simp at hl; omega)
      refine ⟨by simp [fdtBaseTableSpec, hlen]; omega, ?_⟩
      intro k hk
      cases k with
      | zero => simp [fdtBaseTableSpec]
      | succ k =>
        obtain ⟨e0, e1⟩ := hidx k (by omega)
        have a0 : 2 * (k + 1) = 2 * k + 1 + 1 := by omega
        have a1 : 2 * (k + 1) + 1 = 2 * k + 1 + 1 + 1 := by omega
        rw [a1, a0]
        simp only [fdtBaseTableSpec, List.cons_append, List.nil_append, List.getElem?_cons_succ,
          List.getD_cons_succ]
        exact ⟨e0, e1⟩

/-- The FDT transform on a table of even length `len`, when it returns: the
output holds `len + 2` bytes, one 16-bit word more than the table. -/
theorem generate_fdt_base_length (data : List Nat) (len : Nat) (hbytes : IsBytes data)
    (heven : len % 2 = 0) (hmem : len + 2 ≤ data.length) (h31 : len < 2 ^ 31 - 1) :
    ∃ out, fpi_goodix_protocol_generate_fdt_base data len = some out
      ∧ out.length = len + 2 := by
  refine ⟨_, generate_fdt_base_eq data len hbytes (by omega) h31, ?_⟩
  have hm : 2 * (len / 2 + 1) = len + 2 := by omega
  rw [(fdtBaseTableSpec_index (len / 2 + 1) (data.take (2 * (len / 2 + 1)))
    (by rw [List.length_take]; omega)).1, hm]

/-! ## Well-formed frames -/

/-- A list of `n + 1` cells is its first `n` cells followed by its last cell. -/
theorem take_append_last (l : List Nat) (n b : Nat) (hl : l.length = n + 1)
    (hb : l[n]? = some b) : l = l.take n ++ [b] := by
  apply List.ext_getElem?
  intro j
  by_cases hj : j < n
  · rw [List.getElem?_append_left (by rw [List.length_take]; omega), List.getElem?_take,
      if_pos hj]
  · rw [List.getElem?_append_right (by rw [List.length_take]; omega), List.length_take,
      Nat.min_eq_left (by omega)]
    by_cases hjn : j = n
    · subst hjn
      rw [hb, Nat.sub_self]
      rfl
    · rw [List.getElem?_eq_none (by omega), List.getElem?_eq_none (by simp; omega)]

/-- A buffer of exactly `L + 3` cells splits into the three header cells, the
`L - 1` payload cells and the last cell. -/
theorem frame_decompose (data : List Nat) (L cmd lo hi b : Nat)
    (h0 : data[0]? = some cmd) (h1 : data[1]? = some lo) (h2 : data[2]? = some hi)
    (hL1 : 1 ≤ L) (hlen : data.length = L + 3) (hb : data[L + 2]? = some b) :
    data = [cmd, lo, hi] ++ (data.drop 3).take (L - 1) ++ [b] ++ [] := by
  rcases data with _ | ⟨c0, _ | ⟨c1, _ | ⟨c2, rest⟩⟩⟩
  · simp at h0
  · simp at h1
  · simp at h2
  · simp only [List.getElem?_cons_zero, List.getElem?_cons_succ, Option.some.injEq,
      List.length_cons] at h0 h1 h2 hlen
    have hidx : L + 2 = (L - 1) + 1 + 1 + 1 := by omega
    rw [hidx] at hb
    simp only [List.getElem?_cons_succ] at hb
    subst h0 h1 h2
    have hrest := take_append_last rest (L - 1) b (by omega) hb
    simp only [List.drop_succ_cons, List.drop_zero, List.append_nil, List.cons_append,
      List.nil_append, List.append_assoc]
    rw [← hrest]

set_option maxRecDepth 100000 in
/-- A `cmd` byte with bit 0 clear is rebuilt from its category and command. -/
theorem cmd_rebuild : ∀ cmd : Nat, cmd < 256 → cmd % 2 = 0 →
    (((cmd >>> 4) <<< 4) ||| (((cmd &&& 0xF) >>> 1) <<< 1)) % 256 = cmd := by
  decide

/-! ## Independence of the OTP hash from byte 25 -/

/-- The OTP loop gives the same result on two sequences that agree at every
index other than 25. -/
theorem otp_loop_congr (otp otp' table : List Nat)
    (hsame : ∀ i, i ≠ 25 → otp'[i]? = otp[i]?) :
    ∀ (k i c : Nat),
      fpi_goodix_protocol_compute_otp_hash.loop otp' table k i c
        = fpi_goodix_protocol_compute_otp_hash.loop otp table k i c := by
  intro k
  induction k with
  | zero => intro i c; rfl
  | succ k ih =>
    intro i c
    rw [fpi_goodix_protocol_compute_otp_hash.loop, fpi_goodix_protocol_compute_otp_hash.loop]
    by_cases h25 : i = 25
    · subst h25
      simpa using ih 26 c
    · have hbeq : (i == 25) = false := by simpa using h25
      simp only [hbeq, Bool.false_eq_true, if_false, hsame i h25]
      cases otp[i]? with
      | none => rfl
      | some b =>
        simp only []
        cases table[c ^^^ b]? with
        | none => rfl
        | some t => exact ih (i + 1) t

/-- On well-formed inputs the computed OTP hash is the spec hash, a byte. -/
theorem compute_otp_hash_eq (otp table : List Nat) (hn32 : otp.length < 2 ^ 32)
    (hotp : IsBytes otp) (htl : table.length = 256) (htb : IsBytes table) :
    fpi_goodix_protocol_compute_otp_hash otp otp.length table = some (otpHashSpec table otp)
      ∧ otpHashSpec table otp < 256 := by
  obtain ⟨hloop, hlt⟩ := otp_loop_eq otp table hotp htl htb otp.length 0 0 (by omega) (by decide)
  have hrange : List.range' 0 otp.length = List.range otp.length :=
    (List.range_eq_range' (n := otp.length)).symm
  rw [hrange] at hloop hlt
  have hstate : (List.filter (fun j => j != 25) (List.range otp.length)).foldl
      (fun state j => table.getD (state ^^^ otp.getD j 0) 0) 0 = otpStateSpec table otp := rfl
  rw [hstate] at hloop hlt
  unfold fpi_goodix_protocol_compute_otp_hash
  rw [Nat.mod_eq_of_lt hn32, hloop]
  simp only [complement_byte _ hlt]
  refine ⟨rfl, ?_⟩
  unfold otpHashSpec
  exact Nat.xor_lt_two_pow (n := 8) hlt (by decide)

/-! ## The claims -/

/-- C1: for every category in 0..15, command in 0..7 and payload of length
0..255, decoding the buffer that the encoder produces with `calc_checksum` set
and `pad_data` unset succeeds and returns the same category, command and
payload. -/
theorem encode_decode_roundtrip (B category command : Nat) (payload : List Nat)
    (hcat : category ≤ 15) (hcmd : command ≤ 7) (hlen : payload.length ≤ 255) :
    ∃ data data_len,
      fpi_goodix_protocol_encode B
          { category := category, command := command, payload := payload } true false
        = some (data, data_len)
      ∧ fpi_goodix_protocol_decode data
        = some (.ok { category := category, command := command, payload := payload }) := by
  obtain ⟨hc, hk, _, _⟩ := cmd_fields category (by omega) command (by omega)
  refine ⟨_, _, encode_unpadded B _ (by simp only []; omega), ?_⟩
  simp only []
  rw [decode_frame _ _ _ payload _ [] (length_field payload.length (by omega)) (by omega)]
  rw [take_header _ _ _ _ _ (by omega), if_neg (by simp), hc, hk]

/-- Witness of C1 at category 0xA, command 3 and payload 1, 2, 3. -/
theorem encode_decode_roundtrip_witness :
    ∃ data data_len,
      fpi_goodix_protocol_encode 64 { category := 0xA, command := 3, payload := [1, 2, 3] }
          true false = some (data, data_len)
      ∧ fpi_goodix_protocol_decode data
        = some (.ok { category := 0xA, command := 3, payload := [1, 2, 3] }) :=
  encode_decode_roundtrip 64 0xA 3 [1, 2, 3] (by decide) (by decide) (by decide)

/-- C2: on a byte sequence of length below 65536 `fpi_goodix_calc_checksum`
returns `(0xAA - S) mod 256` where `S` is the plain sum of all the bytes, so
reducing the running sum modulo 256 changes nothing; the checksum of the empty
sequence is 0xAA. -/
theorem calc_checksum_is_complement_of_sum (data : List Nat) (hlen : data.length < 65536) :
    fpi_goodix_calc_checksum data data.length
        = some (((0xAA : Int) - (data.sum : Int)) % 256).toNat
      ∧ fpi_goodix_calc_checksum data data.length = some (checksumSpec data)
      ∧ fpi_goodix_calc_checksum [] 0 = some 0xAA := by
  have h := calc_checksum_eq data data.length (Nat.mod_le _ _)
  rw [Nat.mod_eq_of_lt hlen, List.take_length] at h
  exact ⟨h, h, by decide⟩

/-- Witness of C2 at the bytes 0xFF, 0xFF, 0x10, whose sum exceeds 255. -/
theorem calc_checksum_is_complement_of_sum_witness :
    fpi_goodix_calc_checksum [0xFF, 0xFF, 0x10] 3
        = some (((0xAA : Int) - (([0xFF, 0xFF, 0x10] : List Nat).sum : Int)) % 256).toNat
      ∧ fpi_goodix_calc_checksum [0xFF, 0xFF, 0x10] 3 = some (checksumSpec [0xFF, 0xFF, 0x10])
      ∧ fpi_goodix_calc_checksum [] 0 = some 0xAA :=
  calc_checksum_is_complement_of_sum [0xFF, 0xFF, 0x10] (by decide)

/-- C3: on a buffer whose length field `L` (little-endian at offsets 1 and 2)
satisfies `1 <= L <= 256` and that holds at least `L + 3` bytes, the decoder
fails exactly when the byte at offset `L + 2` is neither 0x88 nor the checksum
of the first `L + 2` bytes; it succeeds exactly in the other case, in
particular whenever that byte is 0x88; and the error of a failure reports the
recomputed checksum as expected and the byte of the buffer as received. -/
theorem decode_fails_iff_checksum_mismatch (data : List Nat) (lo hi : Nat)
    (h1 : data[1]? = some lo) (h2 : data[2]? = some hi)
    (hL1 : 1 ≤ lo + 256 * hi) (hL256 : lo + 256 * hi ≤ 256)
    (hlen : lo + 256 * hi + 3 ≤ data.length) :
    ∃ b, data[lo + 256 * hi + 2]? = some b
      ∧ ((∃ e, fpi_goodix_protocol_decode data = some (.error e))
          ↔ (b ≠ 0x88 ∧ b ≠ checksumSpec (data.take (lo + 256 * hi + 2))))
      ∧ ((∃ m, fpi_goodix_protocol_decode data = some (.ok m))
          ↔ (b = 0x88 ∨ b = checksumSpec (data.take (lo + 256 * hi + 2))))
      ∧ (b = 0x88 → ∃ m, fpi_goodix_protocol_decode data = some (.ok m))
      ∧ ∀ e, fpi_goodix_protocol_decode data = some (.error e) →
          e = { domain := 1, code := 1,
                message := "Wrong checksum: expected "
                  ++ fmt02x (checksumSpec (data.take (lo + 256 * hi + 2)))
                  ++ ", received " ++ fmt02x b } := by
  have hlt : lo + 256 * hi + 2 < data.length := by omega
  have h0lt : 0 < data.length := by omega
  have hmod : (lo + 256 * hi + 2) % 65536 = lo + 256 * hi + 2 := by omega
  have hdec := decode_eq data data[0] lo hi data[lo + 256 * hi + 2]
    (List.getElem?_eq_getElem h0lt) h1 h2 hL1 (by omega) hlen (List.getElem?_eq_getElem hlt)
  rw [hmod] at hdec
  refine ⟨data[lo + 256 * hi + 2], List.getElem?_eq_getElem hlt, ?_⟩
  by_cases hbad : data[lo + 256 * hi + 2] ≠ 0x88
      ∧ data[lo + 256 * hi + 2] ≠ checksumSpec (data.take (lo + 256 * hi + 2))
  · rw [if_pos hbad] at hdec
    rw [hdec]
    refine ⟨⟨fun _ => hbad, fun _ => ⟨_, rfl⟩⟩, ⟨?_, ?_⟩, ?_, ?_⟩
    · rintro ⟨m, hm⟩
      simp at hm
    · intro h
      rcases h with h | h
      · exact absurd h hbad.1
      · exact absurd h hbad.2
    · intro h
      exact absurd h hbad.1
    · intro e he
      simp only [Option.some.injEq, Except.error.injEq] at he
      rw [← he]
      rfl
  · rw [if_neg hbad] at hdec
    rw [hdec]
    have hgood : data[lo + 256 * hi + 2] = 0x88
        ∨ data[lo + 256 * hi + 2] = checksumSpec (data.take (lo + 256 * hi + 2)) := by
      by_cases h : data[lo + 256 * hi + 2] = 0x88
      · exact Or.inl h
      · right
        by_contra h'
        exact hbad ⟨h, h'⟩
    refine ⟨⟨?_, fun h => absurd h hbad⟩, ⟨fun _ => hgood, fun _ => ⟨_, rfl⟩⟩,
      fun _ => ⟨_, rfl⟩, ?_⟩
    · rintro ⟨e, he⟩
      simp at he
    · intro e he
      simp at he

/-- Witness of C3 at a five-byte frame with a wrong checksum byte. -/
theorem decode_fails_iff_checksum_mismatch_witness :
    ∃ b, ([0, 2, 0, 0x21, 0x86] : List Nat)[2 + 256 * 0 + 2]? = some b
      ∧ ((∃ e, fpi_goodix_protocol_decode [0, 2, 0, 0x21, 0x86] = some (.error e))
          ↔ (b ≠ 0x88 ∧ b ≠ checksumSpec (([0, 2, 0, 0x21, 0x86] : List Nat).take (2 + 256 * 0 + 2))))
      ∧ ((∃ m, fpi_goodix_protocol_decode [0, 2, 0, 0x21, 0x86] = some (.ok m))
          ↔ (b = 0x88 ∨ b = checksumSpec (([0, 2, 0, 0x21, 0x86] : List Nat).take (2 + 256 * 0 + 2))))
      ∧ (b = 0x88 → ∃ m, fpi_goodix_protocol_decode [0, 2, 0, 0x21, 0x86] = some (.ok m))
      ∧ ∀ e, fpi_goodix_protocol_decode [0, 2, 0, 0x21, 0x86] = some (.error e) →
          e = { domain := 1, code := 1,
                message := "Wrong checksum: expected "
                  ++ fmt02x (checksumSpec (([0, 2, 0, 0x21, 0x86] : List Nat).take (2 + 256 * 0 + 2)))
                  ++ ", received " ++ fmt02x b } :=
  decode_fails_iff_checksum_mismatch [0, 2, 0, 0x21, 0x86] 2 0 (by decide) (by decide)
    (by decide) (by decide) (by decide)

/-- Counterexample to C4 as stated: the payload 0x20 under category 0 and
command 0 is encoded with the checksum byte 0x88, which the decoder takes for
the sentinel; after the payload byte is replaced by 0x21 the decoder still
succeeds, and returns the corrupted payload. -/
theorem corrupted_payload_accepted_under_sentinel :
    fpi_goodix_protocol_encode 64 { category := 0, command := 0, payload := [0x20] } true false
        = some ([0, 2, 0, 0x20, 0x88], 5)
      ∧ (0x21 : Nat) ≠ 0x20
      ∧ fpi_goodix_protocol_decode (([0, 2, 0, 0x20, 0x88] : List Nat).set (3 + 0) 0x21)
        = some (.ok { category := 0, command := 0, payload := [0x21] }) :=
  ⟨by decide, by decide, by rfl⟩

/-- C4, amended: for every payload of bytes of length 1..255, every payload
position and every replacement byte different from the byte at that position,
if the checksum byte written by the encoder (`calc_checksum` set, `pad_data`
unset) is not the sentinel 0x88, then the decoder fails with the
wrong-checksum error on the buffer in which that payload byte is replaced. -/
theorem payload_corruption_detected_unless_sentinel (B category command : Nat)
    (payload : List Nat) (i v : Nat)
    (hlen : payload.length ≤ 255) (hbytes : IsBytes payload) (hi : i < payload.length)
    (hv : v < 256) (hne : payload[i]? ≠ some v) :
    ∃ data data_len,
      fpi_goodix_protocol_encode B
          { category := category, command := command, payload := payload } true false
        = some (data, data_len)
      ∧ (data[3 + payload.length]? ≠ some 0x88 →
          ∃ expected received,
            fpi_goodix_protocol_decode (data.set (3 + i) v)
              = some (.error (wrongChecksum expected received))) := by
  refine ⟨_, _, encode_unpadded B _ (by simp only []; omega), ?_⟩
  simp only []
  intro h88
  have hne' : v ≠ payload[i] := by
    intro h
    apply hne
    rw [List.getElem?_eq_getElem hi, h]
  rw [frame_checksum_index] at h88
  exact ⟨_, _, (corrupt_frame _ _ _ payload i v (length_field payload.length (by omega))
    (by omega) hbytes hi hv hne' (by simpa using h88)).1⟩

/-- Witness of the amended C4: the payload 1, 2, 3 under category 0xA and
command 3, with the byte at position 1 replaced by 7. -/
theorem payload_corruption_detected_unless_sentinel_witness :
    ∃ data data_len,
      fpi_goodix_protocol_encode 64
          { category := 0xA, command := 3, payload := [1, 2, 3] } true false
        = some (data, data_len)
      ∧ (data[3 + ([1, 2, 3] : List Nat).length]? ≠ some 0x88 →
          ∃ expected received,
            fpi_goodix_protocol_decode (data.set (3 + 1) 7)
              = some (.error (wrongChecksum expected received))) :=
  payload_corruption_detected_unless_sentinel 64 0xA 3 [1, 2, 3] 1 7 (by decide) (by decide)
    (by decide) (by decide) (by decide)

/-- Evaluation for C5 at a payload of 65533 zero bytes (category 0, command 0):
header and payload take 65536 bytes, which the `guint16` length parameter of
`fpi_goodix_calc_checksum` turns into 0, so the encoder writes the checksum of
the empty sequence, 0xAA, at offset 3 + 65533, whereas the checksum of header
and payload is 0xAD. -/
theorem encode_checksum_truncates_long_payload :
    fpi_goodix_protocol_encode 64
        { category := 0, command := 0, payload := List.replicate 65533 0 } true false
      = some ([0x00, 0xFE, 0xFF] ++ List.replicate 65533 0 ++ [0xAA], 65537)
    ∧ ([0x00, 0xFE, 0xFF] ++ List.replicate 65533 0 ++ [0xAA])[3 + 65533]? = some 0xAA
    ∧ checksumSpec ([0x00, 0xFE, 0xFF] ++ List.replicate 65533 0) = 0xAD := by
  refine ⟨?_, ?_, ?_⟩
  · exact encode_wrapped_checksum 64
      { category := 0, command := 0, payload := List.replicate 65533 0 }
      (List.length_replicate 65533 0)
  · have h := frame_checksum_index 0x00 0xFE 0xFF (List.replicate 65533 0) 0xAA []
    rw [List.length_replicate, List.append_nil] at h
    exact h
  · have hs : ([0x00, 0xFE, 0xFF] ++ List.replicate 65533 0).sum = 509 := by
      rw [List.sum_append, List.sum_replicate]
      decide
    unfold checksumSpec
    rw [hs]
    decide

/-- C6: for category <= 15, command <= 7 and a payload of length n <= 65534
the encoded buffer holds `(category << 4) | (command << 1)` at offset 0 (an
even value), the little-endian 16-bit encoding of n + 1 at offsets 1 and 2, and
the payload bytes, unchanged and in order, at offsets 3 .. 3 + n - 1. When
`pad_data` is set the block size is taken positive and below 2 ^ 32. -/
theorem encode_header_and_payload (B category command : Nat) (payload : List Nat)
    (calc_checksum pad_data : Bool)
    (hcat : category ≤ 15) (hcmd : command ≤ 7) (hlen : payload.length ≤ 65534)
    (hB : pad_data = true → 0 < B ∧ B < 2 ^ 32) :
    ∃ data data_len,
      fpi_goodix_protocol_encode B
          { category := category, command := command, payload := payload }
          calc_checksum pad_data = some (data, data_len)
      ∧ data[0]? = some ((category <<< 4) ||| (command <<< 1))
      ∧ ((category <<< 4) ||| (command <<< 1)) % 2 = 0
      ∧ data[1]? = some ((payload.length + 1) % 256)
      ∧ data[2]? = some ((payload.length + 1) / 256)
      ∧ (payload.length + 1) / 256 < 256
      ∧ (∀ j, j < payload.length → data[3 + j]? = payload[j]?)
      ∧ (data.drop 3).take payload.length = payload := by
  obtain ⟨_, _, hc, heven⟩ := cmd_fields category (by omega) command (by omega)
  have hmod : (payload.length + 1) % 65536 = payload.length + 1 := by omega
  refine ⟨_, _, encode_eq B _ calc_checksum pad_data (by simp only []; omega) hB, ?_⟩
  simp only [hmod, hc]
  rw [hc] at heven
  refine ⟨by simp, heven, by simp, by simp, by omega, ?_, by simp⟩
  intro j hj
  have h : 3 + j = ([category <<< 4 ||| command <<< 1, (payload.length + 1) % 256,
      (payload.length + 1) / 256] : List Nat).length + j := by simp
  rw [List.append_assoc, List.append_assoc, h, List.getElem?_append_right (by omega)]
  simp only [Nat.add_sub_cancel_left]
  rw [List.getElem?_append_left hj]

/-- Witness of C6 at category 0xA, command 3, payload 1, 2, 3, with checksum
and with padding to blocks of 8 bytes. -/
theorem encode_header_and_payload_witness :
    ∃ data data_len,
      fpi_goodix_protocol_encode 8
          { category := 0xA, command := 3, payload := [1, 2, 3] } true true
        = some (data, data_len)
      ∧ data[0]? = some ((0xA <<< 4) ||| (3 <<< 1))
      ∧ ((0xA <<< 4) ||| (3 <<< 1)) % 2 = 0
      ∧ data[1]? = some ((([1, 2, 3] : List Nat).length + 1) % 256)
      ∧ data[2]? = some ((([1, 2, 3] : List Nat).length + 1) / 256)
      ∧ (([1, 2, 3] : List Nat).length + 1) / 256 < 256
      ∧ (∀ j, j < ([1, 2, 3] : List Nat).length → data[3 + j]? = ([1, 2, 3] : List Nat)[j]?)
      ∧ (data.drop 3).take ([1, 2, 3] : List Nat).length = [1, 2, 3] :=
  encode_header_and_payload 8 0xA 3 [1, 2, 3] true true (by decide) (by decide) (by decide)
    (fun _ => ⟨by decide, by decide⟩)

/-- Counterexample to C7 as stated: with the block size 2 ^ 32 the padded
length of an empty payload, 4 + (2 ^ 32 - 4), does not fit the `guint32`
`*data_len`, which becomes 0 instead of the least multiple 2 ^ 32; the
allocation is then too short for the header. -/
theorem padded_length_wraps_at_block_size_two_pow_32 :
    fpi_goodix_protocol_encode.data_len (2 ^ 32) ([] : List Nat).length true = 0
      ∧ ¬ (([] : List Nat).length + 4 ≤
            fpi_goodix_protocol_encode.data_len (2 ^ 32) ([] : List Nat).length true)
      ∧ fpi_goodix_protocol_encode (2 ^ 32)
          { category := 0, command := 0, payload := [] } true true = none := by
  decide

/-- C7, amended: for a payload of length n <= 65534 and a block size B with
0 < B < 2 ^ 32, the unpadded buffer has length exactly n + 4; the padded buffer
has as length the least multiple of B that is >= n + 4 (n + 4 itself when it is
a multiple of B), its first n + 4 bytes are the unpadded encoding, and every
byte after the checksum byte is zero. -/
theorem encode_length_and_padding (B category command : Nat) (payload : List Nat)
    (calc_checksum : Bool) (hlen : payload.length ≤ 65534)
    (hB : 0 < B) (hB32 : B < 2 ^ 32) :
    ∃ data padded padded_len,
      fpi_goodix_protocol_encode B
          { category := category, command := command, payload := payload }
          calc_checksum false = some (data, payload.length + 4)
      ∧ data.length = payload.length + 4
      ∧ fpi_goodix_protocol_encode B
          { category := category, command := command, payload := payload }
          calc_checksum true = some (padded, padded_len)
      ∧ padded.length = padded_len
      ∧ B ∣ padded_len ∧ payload.length + 4 ≤ padded_len
      ∧ (∀ m, B ∣ m → payload.length + 4 ≤ m → padded_len ≤ m)
      ∧ ((payload.length + 4) % B = 0 → padded_len = payload.length + 4)
      ∧ padded.take (payload.length + 4) = data
      ∧ (∀ j, payload.length + 4 ≤ j → j < padded_len → padded[j]? = some 0) := by
  have hn : payload.length < 65536 := by omega
  obtain ⟨hdvd, hge, hlt⟩ := data_len_padded B payload.length hn hB hB32
  have hu := encode_eq B { category := category, command := command, payload := payload }
    calc_checksum false hn (by simp)
  have hp := encode_eq B { category := category, command := command, payload := payload }
    calc_checksum true hn (fun _ => ⟨hB, hB32⟩)
  rw [data_len_unpadded B _ hn] at hu
  simp only [Nat.sub_self, List.replicate_zero, List.append_nil] at hu
  generalize fpi_goodix_protocol_encode.data_len B payload.length true = N at hdvd hge hlt hp
  refine ⟨_, _, _, hu, by simp, hp, by simp; omega, hdvd, hge, ?_, ?_, ?_, ?_⟩
  · intro m hm hle
    by_contra hcon
    have hmN : m < N := by omega
    have hd : B ∣ N - m := Nat.dvd_sub' hdvd hm
    have := Nat.le_of_dvd (by omega) hd
    omega
  · intro hz
    obtain ⟨k, rfl⟩ := hdvd
    obtain ⟨k', hk'⟩ := Nat.dvd_of_mod_eq_zero hz
    rw [hk'] at hge hlt ⊢
    have h1 : k' ≤ k := Nat.le_of_mul_le_mul_left hge hB
    have h2 : k < k' + 1 := by
      apply Nat.lt_of_mul_lt_mul_left (a := B)
      rw [Nat.mul_add, Nat.mul_one]
      exact hlt
    have : k = k' := by omega
    rw [this]
  · apply List.take_left'
    simp
  · intro j hj hjN
    rw [List.getElem?_append_right (by simp; omega)]
    rw [List.getElem?_replicate]
    rw [if_pos (by simp; omega)]

/-- Witness of the amended C7 at the payload 1, 2, 3 and blocks of 8 bytes. -/
theorem encode_length_and_padding_witness :
    ∃ data padded padded_len,
      fpi_goodix_protocol_encode 8
          { category := 0xA, command := 3, payload := [1, 2, 3] }
          true false = some (data, ([1, 2, 3] : List Nat).length + 4)
      ∧ data.length = ([1, 2, 3] : List Nat).length + 4
      ∧ fpi_goodix_protocol_encode 8
          { category := 0xA, command := 3, payload := [1, 2, 3] }
          true true = some (padded, padded_len)
      ∧ padded.length = padded_len
      ∧ 8 ∣ padded_len ∧ ([1, 2, 3] : List Nat).length + 4 ≤ padded_len
      ∧ (∀ m, 8 ∣ m → ([1, 2, 3] : List Nat).length + 4 ≤ m → padded_len ≤ m)
      ∧ ((([1, 2, 3] : List Nat).length + 4) % 8 = 0
          → padded_len = ([1, 2, 3] : List Nat).length + 4)
      ∧ padded.take (([1, 2, 3] : List Nat).length + 4) = data
      ∧ (∀ j, ([1, 2, 3] : List Nat).length + 4 ≤ j → j < padded_len → padded[j]? = some 0) :=
  encode_length_and_padding 8 0xA 3 [1, 2, 3] true (by decide) (by decide) (by decide)

/-- C8: when the decoder accepts a buffer of bytes whose length field `L` is
at least 1, the message has category `cmd >> 4`, command `(cmd & 0xF) >> 1`
and, as payload, the `L - 1` bytes at offsets 3 .. L + 1, where `cmd` is the
byte at offset 0; bit 0 of `cmd` takes no part, as both fields are those of
`cmd` with bit 0 cleared. -/
theorem decode_extracts_fields (data : List Nat) (cmd lo hi : Nat) (msg : GoodixMessage)
    (hbytes : IsBytes data)
    (h0 : data[0]? = some cmd) (h1 : data[1]? = some lo) (h2 : data[2]? = some hi)
    (hL1 : 1 ≤ lo + 256 * hi)
    (hdec : fpi_goodix_protocol_decode data = some (.ok msg)) :
    msg.category = cmd >>> 4
      ∧ msg.command = (cmd &&& 0xF) >>> 1
      ∧ msg.category = (2 * (cmd / 2)) >>> 4
      ∧ msg.command = ((2 * (cmd / 2)) &&& 0xF) >>> 1
      ∧ msg.payload = (data.drop 3).take (lo + 256 * hi - 1)
      ∧ msg.payload.length = lo + 256 * hi - 1
      ∧ (∀ j, j < lo + 256 * hi - 1 → msg.payload[j]? = data[3 + j]?) := by
  have hlo : lo < 256 := hbytes lo (List.getElem?_mem h1)
  have hhi : hi < 256 := hbytes hi (List.getElem?_mem h2)
  have hdl : (sizeof_GoodixDevicePack + (lo + 256 * hi) - 1) % 2 ^ 32 = lo + 256 * hi + 2 := by
    simp only [sizeof_GoodixDevicePack]; omega
  cases hb : data[lo + 256 * hi + 2]? with
  | none =>
    unfold fpi_goodix_protocol_decode at hdec
    simp only [h1, h2] at hdec
    rw [hdl, hb] at hdec
    exact Option.noConfusion hdec
  | some b =>
    have hlt : lo + 256 * hi + 2 < data.length := by
      by_contra hcon
      rw [List.getElem?_eq_none (by omega)] at hb
      exact Option.noConfusion hb
    rw [decode_eq data cmd lo hi b h0 h1 h2 hL1 (by omega) (by omega) hb] at hdec
    split at hdec
    · simp at hdec
    · simp only [Option.some.injEq, Except.ok.injEq] at hdec
      subst hdec
      have hand : ∀ x : Nat, x &&& 0xF = x % 16 := fun x =>
        Nat.and_pow_two_sub_one_eq_mod x 4
      refine ⟨rfl, rfl, ?_, ?_, rfl, ?_, ?_⟩
      · simp only [Nat.shiftRight_eq_div_pow]
        omega
      · simp only [Nat.shiftRight_eq_div_pow, hand]
        omega
      · simp
        omega
      · intro j hj
        simp only [List.getElem?_take, if_pos hj, List.getElem?_drop]

/-- Witness of C8 at a frame with the odd `cmd` byte 0xA7 and the sentinel
checksum. -/
theorem decode_extracts_fields_witness :
    ({ category := 0xA, command := 3, payload := [1, 2, 3] } : GoodixMessage).category
        = 0xA7 >>> 4
      ∧ ({ category := 0xA, command := 3, payload := [1, 2, 3] } : GoodixMessage).command
        = (0xA7 &&& 0xF) >>> 1
      ∧ ({ category := 0xA, command := 3, payload := [1, 2, 3] } : GoodixMessage).category
        = (2 * (0xA7 / 2)) >>> 4
      ∧ ({ category := 0xA, command := 3, payload := [1, 2, 3] } : GoodixMessage).command
        = ((2 * (0xA7 / 2)) &&& 0xF) >>> 1
      ∧ ({ category := 0xA, command := 3, payload := [1, 2, 3] } : GoodixMessage).payload
        = (([0xA7, 4, 0, 1, 2, 3, 0x88] : List Nat).drop 3).take (4 + 256 * 0 - 1)
      ∧ ({ category := 0xA, command := 3, payload := [1, 2, 3] } : GoodixMessage).payload.length
        = 4 + 256 * 0 - 1
      ∧ (∀ j, j < 4 + 256 * 0 - 1 →
          ({ category := 0xA, command := 3, payload := [1, 2, 3] } : GoodixMessage).payload[j]?
            = ([0xA7, 4, 0, 1, 2, 3, 0x88] : List Nat)[3 + j]?) :=
  decode_extracts_fields [0xA7, 4, 0, 1, 2, 3, 0x88] 0xA7 4 0
    { category := 0xA, command := 3, payload := [1, 2, 3] }
    (by decide) (by decide) (by decide) (by decide) (by decide) (by rfl)

/-- C9: `fpi_goodix_protocol_check_ack` returns true exactly when the category
is 0x0B and the command is 0; so (0x0B, 0) is a valid ack and (0x0C, 0),
(0x0B, 1) and (0x0C, 1) are not. -/
theorem check_ack_true_iff (domain : Nat) (message : GoodixMessage) :
    ((fpi_goodix_protocol_check_ack domain message).1 = true
        ↔ (message.category = 0x0B ∧ message.command = 0))
      ∧ (fpi_goodix_protocol_check_ack domain
          { category := 0x0B, command := 0, payload := message.payload }).1 = true
      ∧ (fpi_goodix_protocol_check_ack domain
          { category := 0x0C, command := 0, payload := message.payload }).1 = false
      ∧ (fpi_goodix_protocol_check_ack domain
          { category := 0x0B, command := 1, payload := message.payload }).1 = false
      ∧ (fpi_goodix_protocol_check_ack domain
          { category := 0x0C, command := 1, payload := message.payload }).1 = false := by
  refine ⟨?_, rfl, rfl, rfl, rfl⟩
  unfold fpi_goodix_protocol_check_ack
  by_cases hc : message.category = 0x0B <;> by_cases hk : message.command = 0 <;>
    simp [hc, hk]

/-- C10: for an OTP sequence of n >= 26 bytes and a table of 256 bytes,
`fpi_goodix_protocol_verify_otp_hash` returns a boolean (no read leaves the
buffers), and the boolean is true exactly when the byte at index 25 equals the
8-bit complement of the state reached from 0 by `state := table[state XOR
otp[i]]` for i = 0, ..., n - 1 in increasing order, index 25 skipped. -/
theorem verify_otp_hash_iff (otp table : List Nat)
    (hn : 26 ≤ otp.length) (hn32 : otp.length < 2 ^ 32) (hotp : IsBytes otp)
    (htl : table.length = 256) (htb : IsBytes table) :
    ∃ r, fpi_goodix_protocol_verify_otp_hash otp otp.length table = some r
      ∧ (r = true ↔ otp[25]? = some (otpHashSpec table otp))
      ∧ (r = false ↔ otp[25]? ≠ some (otpHashSpec table otp)) := by
  have h25 : 25 < otp.length := by omega
  obtain ⟨hloop, hlt⟩ := otp_loop_eq otp table hotp htl htb otp.length 0 0 (by omega) (by decide)
  have hrange : List.range' 0 otp.length = List.range otp.length :=
    (List.range_eq_range' (n := otp.length)).symm
  rw [hrange] at hloop hlt
  have hstate : (List.filter (fun j => j != 25) (List.range otp.length)).foldl
      (fun state j => table.getD (state ^^^ otp.getD j 0) 0) 0 = otpStateSpec table otp := rfl
  rw [hstate] at hloop hlt
  unfold fpi_goodix_protocol_verify_otp_hash fpi_goodix_protocol_compute_otp_hash
  rw [List.getElem?_eq_getElem h25, Nat.mod_eq_of_lt hn32, hloop]
  simp only [complement_byte _ hlt]
  refine ⟨_, rfl, ?_, ?_⟩
  · simp [otpHashSpec]
  · simp [otpHashSpec]

/-- Witness of C10 at the OTP sequence of 26 zero bytes and the identity
table 0, 1, ..., 255. -/
theorem verify_otp_hash_iff_witness :
    ∃ r, fpi_goodix_protocol_verify_otp_hash (List.replicate 26 0)
          (List.replicate 26 0).length (List.range 256) = some r
      ∧ (r = true ↔ (List.replicate 26 0)[25]?
          = some (otpHashSpec (List.range 256) (List.replicate 26 0)))
      ∧ (r = false ↔ (List.replicate 26 0)[25]?
          ≠ some (otpHashSpec (List.range 256) (List.replicate 26 0))) :=
  verify_otp_hash_iff (List.replicate 26 0) (List.range 256) (by decide) (by decide)
    (by decide) (by simp) (by simp [IsBytes])

/-- C11: on an input of bytes whose length is a multiple of 6 (and fits the
`gint` loop index), `fpi_goodix_protocol_decode_image` returns (length / 6) * 4
bytes, and output bytes 4k .. 4k + 3 are the low 8 bits of
`((c0 & 0x0F) << 8) | c1`, `(c3 << 4) | (c0 >> 4)`, `((c5 & 0x0F) << 8) | c2`
and `(c4 << 4) | (c5 >> 4)`, where `c0 .. c5` are input bytes 6k .. 6k + 5; the
chunk 0x12, 0x34, 0x56, 0x78, 0x9A, 0xBC gives 0x34, 0x81, 0x56, 0xAB. -/
theorem decode_image_documented_formula (image : List Nat) (hbytes : IsBytes image)
    (hlen : image.length % 6 = 0) (h31 : image.length < 2 ^ 31) :
    (∃ out, fpi_goodix_protocol_decode_image image = some out
      ∧ out.length = image.length / 6 * 4
      ∧ ∀ k, k < image.length / 6 →
          out[4 * k]?
            = some ((((image.getD (6 * k) 0 &&& 0x0F) <<< 8) ||| image.getD (6 * k + 1) 0) % 256)
          ∧ out[4 * k + 1]?
            = some (((image.getD (6 * k + 3) 0 <<< 4) ||| (image.getD (6 * k) 0 >>> 4)) % 256)
          ∧ out[4 * k + 2]?
            = some ((((image.getD (6 * k + 5) 0 &&& 0x0F) <<< 8) ||| image.getD (6 * k + 2) 0)
                % 256)
          ∧ out[4 * k + 3]?
            = some (((image.getD (6 * k + 4) 0 <<< 4) ||| (image.getD (6 * k + 5) 0 >>> 4)) % 256))
    ∧ fpi_goodix_protocol_decode_image [0x12, 0x34, 0x56, 0x78, 0x9A, 0xBC]
        = some [0x34, 0x81, 0x56, 0xAB] := by
  refine ⟨⟨_, decode_image_eq image hbytes hlen h31, ?_⟩, by decide⟩
  obtain ⟨hl, hidx⟩ := decodeImageSimple_index (image.length / 6) image (by omega)
  refine ⟨by omega, ?_⟩
  intro k hk
  obtain ⟨e0, e1, e2, e3⟩ := hidx k hk
  obtain ⟨d0, d1, d2, d3⟩ := image_simple_documented
    (image.getD (6 * k) 0) (image.getD (6 * k + 1) 0) (image.getD (6 * k + 2) 0)
    (image.getD (6 * k + 3) 0) (image.getD (6 * k + 4) 0) (image.getD (6 * k + 5) 0)
    (getD_lt_of_isBytes image hbytes _) (getD_lt_of_isBytes image hbytes _)
    (getD_lt_of_isBytes image hbytes _) (getD_lt_of_isBytes image hbytes _)
  rw [e0, e1, e2, e3]
  exact ⟨congrArg some d0, congrArg some d1, congrArg some d2, congrArg some d3⟩

/-- Witness of C11 at the chunk 0x9F, 0x34, 0x56, 0x78, 0x9A, 0xBC. -/
theorem decode_image_documented_formula_witness :
    (∃ out, fpi_goodix_protocol_decode_image ([0x9F, 0x34, 0x56, 0x78, 0x9A, 0xBC] : List Nat) = some out
      ∧ out.length = ([0x9F, 0x34, 0x56, 0x78, 0x9A, 0xBC] : List Nat).length / 6 * 4
      ∧ ∀ k, k < ([0x9F, 0x34, 0x56, 0x78, 0x9A, 0xBC] : List Nat).length / 6 →
          out[4 * k]?
            = some ((((([0x9F, 0x34, 0x56, 0x78, 0x9A, 0xBC] : List Nat).getD (6 * k) 0 &&& 0x0F) <<< 8)
                ||| ([0x9F, 0x34, 0x56, 0x78, 0x9A, 0xBC] : List Nat).getD (6 * k + 1) 0) % 256)
          ∧ out[4 * k + 1]?
            = some (((([0x9F, 0x34, 0x56, 0x78, 0x9A, 0xBC] : List Nat).getD (6 * k + 3) 0 <<< 4)
                ||| (([0x9F, 0x34, 0x56, 0x78, 0x9A, 0xBC] : List Nat).getD (6 * k) 0 >>> 4)) % 256)
          ∧ out[4 * k + 2]?
            = some ((((([0x9F, 0x34, 0x56, 0x78, 0x9A, 0xBC] : List Nat).getD (6 * k + 5) 0 &&& 0x0F) <<< 8)
                ||| ([0x9F, 0x34, 0x56, 0x78, 0x9A, 0xBC] : List Nat).getD (6 * k + 2) 0) % 256)
          ∧ out[4 * k + 3]?
            = some (((([0x9F, 0x34, 0x56, 0x78, 0x9A, 0xBC] : List Nat).getD (6 * k + 4) 0 <<< 4)
                ||| (([0x9F, 0x34, 0x56, 0x78, 0x9A, 0xBC] : List Nat).getD (6 * k + 5) 0 >>> 4)) % 256))
    ∧ fpi_goodix_protocol_decode_image [0x12, 0x34, 0x56, 0x78, 0x9A, 0xBC]
        = some [0x34, 0x81, 0x56, 0xAB] :=
  decode_image_documented_formula [0x9F, 0x34, 0x56, 0x78, 0x9A, 0xBC]
    (by decide) (by decide) (by decide)

/-- Evaluation for C12 at the one-word table 0x34, 0x12 (`len` = 2): the loop
`i <= len` runs for i = 0 and for i = 2. When the readable memory ends with
the table the second iteration reads outside it; when two more cells can be
read the output holds two words, one more than the table. -/
theorem generate_fdt_base_runs_one_word_too_far :
    fpi_goodix_protocol_generate_fdt_base [0x34, 0x12] 2 = none
      ∧ fpi_goodix_protocol_generate_fdt_base [0x34, 0x12, 0x00, 0x00] 2
        = some [0x1A, 0x1B, 0x00, 0x00]
      ∧ fpi_goodix_protocol_generate_fdt_base [0x34, 0x12, 0xFF, 0xFF] 2
        = some [0x1A, 0x1B, 0xFF, 0xFF] := by
  decide

/-- C13: on an input table of even length 2n bytes, for every word index
i < n, output bytes 2i and 2i + 1 of `fpi_goodix_protocol_generate_fdt_base`
are the little-endian encoding of `(((v & 0xFFFE) * 0x80) | (v >> 1)) mod 65536`
where `v` is the little-endian word at input bytes 2i, 2i + 1; for v = 0x1234
they are 0x1A, 0x1B. The function returns when the two cells after the table
can be read (the loop runs one word past the table) and the length fits the
`gint` index. -/
theorem generate_fdt_base_word_formula (data : List Nat) (len : Nat)
    (hbytes : IsBytes data) (heven : len % 2 = 0) (hmem : len + 2 ≤ data.length)
    (h31 : len < 2 ^ 31 - 1) :
    (∃ out, fpi_goodix_protocol_generate_fdt_base data len = some out
      ∧ ∀ i, i < len / 2 →
          out[2 * i]?
            = some (((((data.getD (2 * i) 0 + 256 * data.getD (2 * i + 1) 0) &&& 0xFFFE) * 0x80)
                  ||| ((data.getD (2 * i) 0 + 256 * data.getD (2 * i + 1) 0) >>> 1))
                % 65536 % 256)
          ∧ out[2 * i + 1]?
            = some (((((data.getD (2 * i) 0 + 256 * data.getD (2 * i + 1) 0) &&& 0xFFFE) * 0x80)
                  ||| ((data.getD (2 * i) 0 + 256 * data.getD (2 * i + 1) 0) >>> 1))
                % 65536 / 256))
    ∧ (((0x1234 &&& 0xFFFE) * 0x80) ||| (0x1234 >>> 1)) % 65536 = 0x1B1A
    ∧ ∃ out, fpi_goodix_protocol_generate_fdt_base [0x34, 0x12, 0x00, 0x00] 2 = some out
        ∧ out[0]? = some 0x1A ∧ out[1]? = some 0x1B := by
  refine ⟨?_, by decide, ⟨[0x1A, 0x1B, 0x00, 0x00], by decide, by decide, by decide⟩⟩
  have hm : 2 * (len / 2 + 1) = len + 2 := by omega
  refine ⟨_, generate_fdt_base_eq data len hbytes (by omega) h31, ?_⟩
  rw [hm]
  obtain ⟨_, hidx⟩ := fdtBaseTableSpec_index (len / 2 + 1) (data.take (len + 2))
    (by rw [List.length_take]; omega)
  intro i hi
  obtain ⟨e0, e1⟩ := hidx i (by omega)
  have hget : ∀ j, j < len + 2 → (data.take (len + 2)).getD j 0 = data.getD j 0 := by
    intro j hj
    rw [List.getD_eq_getElem?_getD, List.getD_eq_getElem?_getD, List.getElem?_take, if_pos hj]
  rw [hget _ (by omega), hget _ (by omega)] at e0 e1
  exact ⟨e0, e1⟩

/-- Witness of C13 at a table of two words followed by two readable cells. -/
theorem generate_fdt_base_word_formula_witness :
    (∃ out, fpi_goodix_protocol_generate_fdt_base [0x34, 0x12, 0xFF, 0xFF, 0x00, 0x00] 4
        = some out
      ∧ ∀ i, i < 4 / 2 →
          out[2 * i]?
            = some ((((((([0x34, 0x12, 0xFF, 0xFF, 0x00, 0x00] : List Nat).getD (2 * i) 0
                    + 256 * ([0x34, 0x12, 0xFF, 0xFF, 0x00, 0x00] : List Nat).getD (2 * i + 1) 0)
                    &&& 0xFFFE) * 0x80)
                  ||| ((([0x34, 0x12, 0xFF, 0xFF, 0x00, 0x00] : List Nat).getD (2 * i) 0
                    + 256 * ([0x34, 0x12, 0xFF, 0xFF, 0x00, 0x00] : List Nat).getD (2 * i + 1) 0)
                    >>> 1))
                % 65536 % 256))
          ∧ out[2 * i + 1]?
            = some ((((((([0x34, 0x12, 0xFF, 0xFF, 0x00, 0x00] : List Nat).getD (2 * i) 0
                    + 256 * ([0x34, 0x12, 0xFF, 0xFF, 0x00, 0x00] : List Nat).getD (2 * i + 1) 0)
                    &&& 0xFFFE) * 0x80)
                  ||| ((([0x34, 0x12, 0xFF, 0xFF, 0x00, 0x00] : List Nat).getD (2 * i) 0
                    + 256 * ([0x34, 0x12, 0xFF, 0xFF, 0x00, 0x00] : List Nat).getD (2 * i + 1) 0)
                    >>> 1))
                % 65536 / 256)))
    ∧ (((0x1234 &&& 0xFFFE) * 0x80) ||| (0x1234 >>> 1)) % 65536 = 0x1B1A
    ∧ ∃ out, fpi_goodix_protocol_generate_fdt_base [0x34, 0x12, 0x00, 0x00] 2 = some out
        ∧ out[0]? = some 0x1A ∧ out[1]? = some 0x1B :=
  generate_fdt_base_word_formula [0x34, 0x12, 0xFF, 0xFF, 0x00, 0x00] 4
    (by decide) (by decide) (by decide) (by decide)

/-- Evaluation for C14: `fpi_goodix_protocol_check_ack` calls `g_set_error`
once for each violated condition, and the error slot keeps the first error it
receives. For category 0x0C and command 1 the error left in the slot is "Not an
ack message" alone; in general the slot holds the category reason whenever the
category is wrong, the command reason when only the command is wrong, and
nothing when the message is a valid ack. -/
theorem check_ack_keeps_first_reason (domain : Nat) (message : GoodixMessage) :
    fpi_goodix_protocol_check_ack domain { category := 0x0C, command := 1, payload := [] }
        = (false, some { domain := domain, code := -1, message := "Not an ack message" })
      ∧ (fpi_goodix_protocol_check_ack domain message).2
        = (if message.category ≠ 0x0B then
            some { domain := domain, code := -1, message := "Not an ack message" }
          else if message.command ≠ 0 then
            some { domain := domain, code := -1, message := "ACK should not have commands" }
          else none) := by
  refine ⟨rfl, ?_⟩
  unfold fpi_goodix_protocol_check_ack
  by_cases hc : message.category = 0x0B <;> by_cases hk : message.command = 0 <;>
    simp [hc, hk, g_set_error]

/-- C15: for a payload of bytes of length 1..255, a payload position and a
replacement byte different from the byte at that position, when the checksum
byte written by the encoder (`calc_checksum` set, `pad_data` unset) is not
0x88 the decoder fails on the corrupted buffer; the error reports as expected
the checksum recomputed over the corrupted header and payload, as received the
checksum byte the encoder wrote, and the two differ. -/
theorem single_byte_corruption_reports_both_checksums (B category command : Nat)
    (payload : List Nat) (i v : Nat)
    (hlen : payload.length ≤ 255) (hbytes : IsBytes payload) (hi : i < payload.length)
    (hv : v < 256) (hne : payload[i]? ≠ some v) :
    ∃ data data_len stored,
      fpi_goodix_protocol_encode B
          { category := category, command := command, payload := payload } true false
        = some (data, data_len)
      ∧ data[3 + payload.length]? = some stored
      ∧ (stored ≠ 0x88 →
          (data.set (3 + i) v)[3 + payload.length]? = some stored
          ∧ fpi_goodix_protocol_decode (data.set (3 + i) v)
            = some (.error
                { domain := 1, code := 1,
                  message := "Wrong checksum: expected "
                    ++ fmt02x (checksumSpec ((data.set (3 + i) v).take (3 + payload.length)))
                    ++ ", received " ++ fmt02x stored })
          ∧ checksumSpec ((data.set (3 + i) v).take (3 + payload.length)) ≠ stored) := by
  refine ⟨_, _, _, encode_unpadded B _ (by simp only []; omega), frame_checksum_index _ _ _ _ _ _,
    ?_⟩
  simp only []
  intro h88
  have hne' : v ≠ payload[i] := by
    intro h
    apply hne
    rw [List.getElem?_eq_getElem hi, h]
  obtain ⟨hdec, hdiff⟩ := corrupt_frame _ _ _ payload i v
    (length_field payload.length (by omega)) (by omega) hbytes hi hv hne' h88
  rw [hdec]
  rw [set_frame _ _ _ payload _ [] i v hi]
  have hidx := frame_checksum_index ((category <<< 4 ||| command <<< 1) % 256)
    ((payload.length + 1) % 65536 % 256) ((payload.length + 1) % 65536 / 256)
    (payload.set i v)
    (checksumSpec ([(category <<< 4 ||| command <<< 1) % 256,
      (payload.length + 1) % 65536 % 256, (payload.length + 1) % 65536 / 256] ++ payload)) []
  rw [List.length_set] at hidx
  have htake : ∀ (c l0 l1 b : Nat),
      List.take (3 + payload.length) ([c, l0, l1] ++ payload.set i v ++ [b] ++ [])
        = [c, l0, l1] ++ payload.set i v := by
    intro c l0 l1 b
    rw [List.append_assoc]
    apply List.take_left'
    simp
    omega
  rw [htake]
  exact ⟨hidx, rfl, hdiff⟩

/-- Witness of C15: the payload 1, 2, 3 under category 0xA and command 3, with
the byte at position 2 replaced by 0xFF. -/
theorem single_byte_corruption_reports_both_checksums_witness :
    ∃ data data_len stored,
      fpi_goodix_protocol_encode 64
          { category := 0xA, command := 3, payload := [1, 2, 3] } true false
        = some (data, data_len)
      ∧ data[3 + ([1, 2, 3] : List Nat).length]? = some stored
      ∧ (stored ≠ 0x88 →
          (data.set (3 + 2) 0xFF)[3 + ([1, 2, 3] : List Nat).length]? = some stored
          ∧ fpi_goodix_protocol_decode (data.set (3 + 2) 0xFF)
            = some (.error
                { domain := 1, code := 1,
                  message := "Wrong checksum: expected "
                    ++ fmt02x (checksumSpec
                        ((data.set (3 + 2) 0xFF).take (3 + ([1, 2, 3] : List Nat).length)))
                    ++ ", received " ++ fmt02x stored })
          ∧ checksumSpec ((data.set (3 + 2) 0xFF).take (3 + ([1, 2, 3] : List Nat).length))
              ≠ stored) :=
  single_byte_corruption_reports_both_checksums 64 0xA 3 [1, 2, 3] 2 0xFF (by decide)
    (by decide) (by decide) (by decide) (by decide)

/-- C16: on a buffer of exactly L + 3 bytes whose little-endian length field is
L with 1 <= L <= 256, whose `cmd` byte has bit 0 clear and whose last byte is the
checksum of the preceding L + 2 bytes, the decoder succeeds, and encoding the
decoded message with `calc_checksum` set and `pad_data` unset gives back the
same buffer, with `data_len` = L + 3. -/
theorem decode_encode_roundtrip (B : Nat) (data : List Nat) (cmd lo hi : Nat)
    (hbytes : IsBytes data)
    (h0 : data[0]? = some cmd) (h1 : data[1]? = some lo) (h2 : data[2]? = some hi)
    (hL1 : 1 ≤ lo + 256 * hi) (hL256 : lo + 256 * hi ≤ 256)
    (hlen : data.length = lo + 256 * hi + 3) (hbit : cmd % 2 = 0)
    (hcs : data[lo + 256 * hi + 2]? = some (checksumSpec (data.take (lo + 256 * hi + 2)))) :
    ∃ msg, fpi_goodix_protocol_decode data = some (.ok msg)
      ∧ fpi_goodix_protocol_encode B msg true false = some (data, lo + 256 * hi + 3) := by
  have hcmd : cmd < 256 := hbytes cmd (List.getElem?_mem h0)
  have hlo : lo < 256 := hbytes lo (List.getElem?_mem h1)
  have hhi : hi < 256 := hbytes hi (List.getElem?_mem h2)
  obtain ⟨b, hb, hbcs⟩ : ∃ b, data[lo + 256 * hi + 2]? = some b
      ∧ b = checksumSpec (data.take (lo + 256 * hi + 2)) := ⟨_, hcs, rfl⟩
  obtain ⟨payload, hplen, hdata⟩ : ∃ payload : List Nat, payload.length = lo + 256 * hi - 1
      ∧ data = [cmd, lo, hi] ++ payload ++ [b] ++ [] :=
    ⟨_, by rw [List.length_take, List.length_drop]; omega,
      frame_decompose data _ cmd lo hi b h0 h1 h2 hL1 hlen hb⟩
  have htake : data.take (lo + 256 * hi + 2) = [cmd, lo, hi] ++ payload := by
    rw [hdata, List.append_assoc]
    apply List.take_left'
    simp
    omega
  rw [htake] at hbcs
  have hL : lo + 256 * hi = payload.length + 1 := by omega
  have hdec : fpi_goodix_protocol_decode data
      = some (.ok { category := cmd >>> 4, command := (cmd &&& 0xF) >>> 1,
                    payload := payload }) := by
    rw [hdata, decode_frame cmd lo hi payload b [] hL (by omega),
      take_header _ _ _ _ _ (by omega), if_neg (fun h => h.2 hbcs)]
  refine ⟨_, hdec, ?_⟩
  rw [encode_unpadded B _ (by simp only []; omega)]
  simp only []
  have hl0 : (payload.length + 1) % 65536 % 256 = lo := by omega
  have hl1 : (payload.length + 1) % 65536 / 256 = hi := by omega
  have hn : payload.length + 4 = lo + 256 * hi + 3 := by omega
  rw [cmd_rebuild cmd hcmd hbit, hl0, hl1, ← hbcs, hn, ← hdata]

/-- Witness of C16 at the frame 0xA6, 4, 0, 1, 2, 3, 0xFA. -/
theorem decode_encode_roundtrip_witness :
    ∃ msg, fpi_goodix_protocol_decode [0xA6, 4, 0, 1, 2, 3, 0xFA] = some (.ok msg)
      ∧ fpi_goodix_protocol_encode 64 msg true false
        = some ([0xA6, 4, 0, 1, 2, 3, 0xFA], 4 + 256 * 0 + 3) :=
  decode_encode_roundtrip 64 [0xA6, 4, 0, 1, 2, 3, 0xFA] 0xA6 4 0 (by decide) (by decide)
    (by decide) (by decide) (by decide) (by decide) (by decide) (by decide) (by decide)

/-- C17: on a buffer of bytes whose little-endian length field is L >= 1 and
that holds at least L + 3 bytes, the decoder reads no cell outside the buffer:
it returns a result, the count L - 1 of copied payload bytes is not negative,
and the result is the one it returns on the first L + 3 bytes alone, so every
index it reads is below L + 3. -/
theorem decode_reads_in_bounds (data : List Nat) (lo hi : Nat) (hbytes : IsBytes data)
    (h1 : data[1]? = some lo) (h2 : data[2]? = some hi)
    (hL1 : 1 ≤ lo + 256 * hi) (hlen : lo + 256 * hi + 3 ≤ data.length) :
    (∃ r, fpi_goodix_protocol_decode data = some r)
      ∧ fpi_goodix_protocol_decode (data.take (lo + 256 * hi + 3))
        = fpi_goodix_protocol_decode data
      ∧ (0 : Int) ≤ ((lo + 256 * hi : Nat) : Int) - 1
      ∧ (∀ msg, fpi_goodix_protocol_decode data = some (.ok msg) →
          msg.payload.length = lo + 256 * hi - 1) := by
  have hlo : lo < 256 := hbytes lo (List.getElem?_mem h1)
  have hhi : hi < 256 := hbytes hi (List.getElem?_mem h2)
  have hlt : lo + 256 * hi + 2 < data.length := by omega
  have hmod : (lo + 256 * hi + 2) % 65536 ≤ lo + 256 * hi + 2 := Nat.mod_le _ _
  have hfull := decode_eq data data[0] lo hi data[lo + 256 * hi + 2]
    (List.getElem?_eq_getElem (by omega)) h1 h2 hL1 (by omega) hlen
    (List.getElem?_eq_getElem hlt)
  have hget : ∀ j, j < lo + 256 * hi + 3 →
      (data.take (lo + 256 * hi + 3))[j]? = data[j]? := by
    intro j hj
    rw [List.getElem?_take, if_pos hj]
  have hpre := decode_eq (data.take (lo + 256 * hi + 3)) data[0] lo hi data[lo + 256 * hi + 2]
    (by rw [hget 0 (by omega)]; exact List.getElem?_eq_getElem (by omega))
    (by rw [hget 1 (by omega)]; exact h1) (by rw [hget 2 (by omega)]; exact h2) hL1 (by omega)
    (by rw [List.length_take]; omega)
    (by rw [hget _ (by omega)]; exact List.getElem?_eq_getElem hlt)
  have htt : (data.take (lo + 256 * hi + 3)).take ((lo + 256 * hi + 2) % 65536)
      = data.take ((lo + 256 * hi + 2) % 65536) := by
    rw [List.take_take, Nat.min_eq_left (by omega)]
  have hdd : ((data.take (lo + 256 * hi + 3)).drop 3).take (lo + 256 * hi - 1)
      = (data.drop 3).take (lo + 256 * hi - 1) := by
    rw [List.drop_take, List.take_take, Nat.min_eq_left (by omega)]
  rw [htt, hdd] at hpre
  refine ⟨?_, by rw [hpre, hfull], by omega, ?_⟩
  · rw [hfull]
    split
    · exact ⟨_, rfl⟩
    · exact ⟨_, rfl⟩
  · intro msg hmsg
    rw [hfull] at hmsg
    split at hmsg
    · simp at hmsg
    · simp only [Option.some.injEq, Except.ok.injEq] at hmsg
      subst hmsg
      simp
      omega

/-- Witness of C17 at a frame followed by two further bytes. -/
theorem decode_reads_in_bounds_witness :
    (∃ r, fpi_goodix_protocol_decode [0xA6, 4, 0, 1, 2, 3, 0xFA, 0x55, 0x66] = some r)
      ∧ fpi_goodix_protocol_decode
          (([0xA6, 4, 0, 1, 2, 3, 0xFA, 0x55, 0x66] : List Nat).take (4 + 256 * 0 + 3))
        = fpi_goodix_protocol_decode [0xA6, 4, 0, 1, 2, 3, 0xFA, 0x55, 0x66]
      ∧ (0 : Int) ≤ ((4 + 256 * 0 : Nat) : Int) - 1
      ∧ (∀ msg, fpi_goodix_protocol_decode [0xA6, 4, 0, 1, 2, 3, 0xFA, 0x55, 0x66]
            = some (.ok msg) →
          msg.payload.length = 4 + 256 * 0 - 1) :=
  decode_reads_in_bounds [0xA6, 4, 0, 1, 2, 3, 0xFA, 0x55, 0x66] 4 0 (by decide) (by decide)
    (by decide) (by decide) (by decide)

/-- C18: the hash computed by `fpi_goodix_protocol_compute_otp_hash` does not
depend on the byte at index 25: two OTP sequences of the same length n >= 26
that agree at every other index have the same computed hash; hence, among the
256 sequences obtained from one sequence by choosing byte 25,
`fpi_goodix_protocol_verify_otp_hash` accepts exactly one. -/
theorem otp_hash_independent_of_byte_25 (otp otp' table : List Nat)
    (hn : 26 ≤ otp.length) (hn32 : otp.length < 2 ^ 32) (hlen : otp'.length = otp.length)
    (hsame : ∀ i, i ≠ 25 → otp'[i]? = otp[i]?)
    (hotp : IsBytes otp) (htl : table.length = 256) (htb : IsBytes table) :
    fpi_goodix_protocol_compute_otp_hash otp' otp.length table
        = fpi_goodix_protocol_compute_otp_hash otp otp.length table
      ∧ (∃ h, fpi_goodix_protocol_compute_otp_hash otp otp.length table = some h)
      ∧ ∃ b, (b < 256
            ∧ fpi_goodix_protocol_verify_otp_hash (otp.set 25 b) otp.length table = some true)
          ∧ ∀ b', b' < 256 →
              fpi_goodix_protocol_verify_otp_hash (otp.set 25 b') otp.length table = some true →
              b' = b := by
  obtain ⟨hcomp, hlt⟩ := compute_otp_hash_eq otp table hn32 hotp htl htb
  have hset : ∀ b, fpi_goodix_protocol_verify_otp_hash (otp.set 25 b) otp.length table
      = some (b == otpHashSpec table otp) := by
    intro b
    have hc : fpi_goodix_protocol_compute_otp_hash (otp.set 25 b) otp.length table
        = fpi_goodix_protocol_compute_otp_hash otp otp.length table := by
      unfold fpi_goodix_protocol_compute_otp_hash
      rw [otp_loop_congr otp (otp.set 25 b) table
        (fun i hi => List.getElem?_set_ne (Ne.symm hi))]
    unfold fpi_goodix_protocol_verify_otp_hash
    rw [hc, hcomp, List.getElem?_set_self (by omega)]
  refine ⟨?_, ⟨_, hcomp⟩, otpHashSpec table otp, ⟨hlt, ?_⟩, ?_⟩
  · unfold fpi_goodix_protocol_compute_otp_hash
    rw [otp_loop_congr otp otp' table hsame]
  · rw [hset]
    simp
  · intro b' _ hb'
    rw [hset] at hb'
    simpa using hb'

/-- Witness of C18 at two sequences of 26 bytes that differ at index 25 only,
with the identity table. -/
theorem otp_hash_independent_of_byte_25_witness :
    fpi_goodix_protocol_compute_otp_hash ((List.replicate 26 0).set 25 7)
          (List.replicate 26 0).length (List.range 256)
        = fpi_goodix_protocol_compute_otp_hash (List.replicate 26 0)
          (List.replicate 26 0).length (List.range 256)
      ∧ (∃ h, fpi_goodix_protocol_compute_otp_hash (List.replicate 26 0)
          (List.replicate 26 0).length (List.range 256) = some h)
      ∧ ∃ b, (b < 256
            ∧ fpi_goodix_protocol_verify_otp_hash ((List.replicate 26 0).set 25 b)
                (List.replicate 26 0).length (List.range 256) = some true)
          ∧ ∀ b', b' < 256 →
              fpi_goodix_protocol_verify_otp_hash ((List.replicate 26 0).set 25 b')
                (List.replicate 26 0).length (List.range 256) = some true →
              b' = b :=
  otp_hash_independent_of_byte_25 (List.replicate 26 0) ((List.replicate 26 0).set 25 7)
    (List.range 256) (by decide) (by decide) (by simp)
    (fun i hi => List.getElem?_set_ne (Ne.symm hi)) (by decide) (by simp) (by simp [IsBytes])

/-- C19: on an input of bytes whose length is a multiple of 6 (and fits the
`gint` loop index) `fpi_goodix_protocol_decode_image` is the simpler map that
sends every chunk `c0 .. c5` to `c1`, `((c3 & 0x0F) << 4) | (c0 >> 4)`, `c2`,
`((c4 & 0x0F) << 4) | (c5 >> 4)`; hence the output is the same on a second
input that differs from the first only in the low nibble of `c0`, the low
nibble of `c5`, the high nibble of `c3` or the high nibble of `c4` of its
chunks. -/
theorem decode_image_is_simple_map (image image' : List Nat)
    (hbytes : IsBytes image) (hbytes' : IsBytes image')
    (hlen : image.length % 6 = 0) (h31 : image.length < 2 ^ 31)
    (hlen' : image'.length = image.length)
    (hagree : ∀ k, k < image.length / 6 →
      image'.getD (6 * k + 1) 0 = image.getD (6 * k + 1) 0
      ∧ image'.getD (6 * k + 2) 0 = image.getD (6 * k + 2) 0
      ∧ image'.getD (6 * k) 0 >>> 4 = image.getD (6 * k) 0 >>> 4
      ∧ image'.getD (6 * k + 5) 0 >>> 4 = image.getD (6 * k + 5) 0 >>> 4
      ∧ image'.getD (6 * k + 3) 0 &&& 0x0F = image.getD (6 * k + 3) 0 &&& 0x0F
      ∧ image'.getD (6 * k + 4) 0 &&& 0x0F = image.getD (6 * k + 4) 0 &&& 0x0F) :
    fpi_goodix_protocol_decode_image image = some (decodeImageSimple image)
      ∧ fpi_goodix_protocol_decode_image image' = fpi_goodix_protocol_decode_image image := by
  have h := decode_image_eq image hbytes hlen h31
  have h' := decode_image_eq image' hbytes' (by omega) (by omega)
  refine ⟨h, ?_⟩
  rw [h, h', decodeImageSimple_congr (image.length / 6) image' image (by omega) (by omega)
    hagree]

/-- Witness of C19: the chunk 0x12, 0x34, 0x56, 0x78, 0x9A, 0xBC and the chunk
obtained from it by changing the low nibbles of `c0` and `c5` and the high
nibbles of `c3` and `c4`. -/
theorem decode_image_is_simple_map_witness :
    fpi_goodix_protocol_decode_image [0x12, 0x34, 0x56, 0x78, 0x9A, 0xBC]
        = some (decodeImageSimple [0x12, 0x34, 0x56, 0x78, 0x9A, 0xBC])
      ∧ fpi_goodix_protocol_decode_image [0x1F, 0x34, 0x56, 0x08, 0xFA, 0xB0]
        = fpi_goodix_protocol_decode_image [0x12, 0x34, 0x56, 0x78, 0x9A, 0xBC] :=
  decode_image_is_simple_map [0x12, 0x34, 0x56, 0x78, 0x9A, 0xBC]
    [0x1F, 0x34, 0x56, 0x08, 0xFA, 0xB0] (by decide) (by decide) (by decide) (by decide)
    (by decide) (by decide)

/-- C20: for four bytes b0, b1, b2, b3 and any value of the length argument,
`fpi_goodix_protocol_decode_u32` returns
`b0 * 0x100 + b1 + b2 * 0x1000000 + b3 * 0x10000` reduced to a 32-bit
two's-complement `int`: the word whose bytes, from most to least significant,
are b2, b3, b0, b1. The result is negative exactly when b2 >= 0x80, and the
length argument has no effect. -/
theorem decode_u32_is_word_b2_b3_b0_b1 (b0 b1 b2 b3 : Nat) (rest : List Nat) (length : Nat)
    (h0 : b0 < 256) (h1 : b1 < 256) (h2 : b2 < 256) (h3 : b3 < 256) :
    ∃ r : Int, fpi_goodix_protocol_decode_u32 (b0 :: b1 :: b2 :: b3 :: rest) length = some r
      ∧ r = toInt32 ((b0 : Int) * 0x100 + (b1 : Int) + (b2 : Int) * 0x1000000
            + (b3 : Int) * 0x10000)
      ∧ -2147483648 ≤ r ∧ r ≤ 2147483647
      ∧ r % 4294967296
          = (b2 : Int) * 16777216 + (b3 : Int) * 65536 + (b0 : Int) * 256 + (b1 : Int)
      ∧ (r < 0 ↔ 0x80 ≤ b2)
      ∧ ∀ length' : Nat,
          fpi_goodix_protocol_decode_u32 (b0 :: b1 :: b2 :: b3 :: rest) length' = some r := by
  have hdec : ∀ len : Nat,
      fpi_goodix_protocol_decode_u32 (b0 :: b1 :: b2 :: b3 :: rest) len
        = some (toInt32 ((b0 : Int) * 0x100 + (b1 : Int) + (b2 : Int) * 0x1000000
            + (b3 : Int) * 0x10000)) := by
    intro len
    simp [fpi_goodix_protocol_decode_u32]
  refine ⟨_, hdec length, rfl, ?_, ?_, ?_, ?_, hdec⟩ <;>
    simp only [toInt32] <;> omega

/-- Witness of C20 at the bytes 0x12, 0x34, 0x80, 0x78, whose word is negative. -/
theorem decode_u32_is_word_b2_b3_b0_b1_witness :
    ∃ r : Int, fpi_goodix_protocol_decode_u32 (0x12 :: 0x34 :: 0x80 :: 0x78 :: []) 4 = some r
      ∧ r = toInt32 (((0x12 : Nat) : Int) * 0x100 + ((0x34 : Nat) : Int)
            + ((0x80 : Nat) : Int) * 0x1000000 + ((0x78 : Nat) : Int) * 0x10000)
      ∧ -2147483648 ≤ r ∧ r ≤ 2147483647
      ∧ r % 4294967296
          = ((0x80 : Nat) : Int) * 16777216 + ((0x78 : Nat) : Int) * 65536
            + ((0x12 : Nat) : Int) * 256 + ((0x34 : Nat) : Int)
      ∧ (r < 0 ↔ 0x80 ≤ 0x80)
      ∧ ∀ length' : Nat,
          fpi_goodix_protocol_decode_u32 (0x12 :: 0x34 :: 0x80 :: 0x78 :: []) length' = some r :=
  decode_u32_is_word_b2_b3_b0_b1 0x12 0x34 0x80 0x78 [] 4 (by decide) (by decide) (by decide)
    (by decide)

end Goodix
